import Mathlib

/-!
Verification model of the obsidigen vault indexer (`src/vault/indexer.ts`,
`src/vault/parser.ts` = `src/unnamed/part_009`, and `src/server/routes/search.ts`).

Strings are modelled as `List Char` (`Str`), JavaScript `Map` as an
insertion-ordered association list with in-place update (`mset`), and
JavaScript `Set` as an insertion-ordered duplicate-free list.  File paths are
taken relative to the vault root (so `relative(vaultPath, filePath)` is the
identity), and the output of the gray-matter metadata extraction is part of
the file model (`FileData`): the promoted `title` property and the merged
`aliases`/`alias` list, plus the raw content that `extractWikiLinks` scans.
`readFileSync` failure is modelled by the path being absent from the
file-system snapshot.
-/

/-- Strings of the embedded program, as explicit character lists. -/
abbrev Str := List Char

/-- Character set of JavaScript's `trim` for the code points we model. -/
def isJsWs (c : Char) : Bool :=
  [9, 10, 11, 12, 13, 32, 160, 0xFEFF].contains c.toNat

/-- Lower-casing of one character as in JavaScript `toLowerCase` (ASCII range). -/
def jsCharLower (c : Char) : Char :=
  if 65 ≤ c.toNat ∧ c.toNat ≤ 90 then Char.ofNat (c.toNat + 32) else c

/-- Model of JavaScript `String.prototype.toLowerCase`. -/
def jsLower (s : Str) : Str := s.map jsCharLower

/-- Model of JavaScript `String.prototype.trim`. -/
def jsTrim (s : Str) : Str :=
  ((s.dropWhile isJsWs).reverse.dropWhile isJsWs).reverse

/-- Model of JavaScript `includes` (substring containment). -/
def strIncludes (s sub : Str) : Bool :=
  if sub.isPrefixOf s then true
  else
    match s with
    | [] => false
    | _ :: t => strIncludes t sub

/-- Model of JavaScript `startsWith`. -/
def strStartsWith (s sub : Str) : Bool := sub.isPrefixOf s

/-- Model of JavaScript `String.prototype.split` with a single-character
separator (`"".split(sep)` is `[""]`, a trailing separator yields `""`). -/
def splitChar (sep : Char) : Str → List Str
  | [] => [[]]
  | c :: t =>
    let r := splitChar sep t
    if c = sep then [] :: r
    else
      match r with
      | [] => [[c]]
      | h :: t2 => (c :: h) :: t2

/-- Join a list of segments with a single-character separator. -/
def joinChar (sep : Char) (l : List Str) : Str := List.intercalate [sep] l

/-- Last segment of a slug: `slug.split('/').pop()` (never undefined since
`split` returns a non-empty array). -/
def lastSeg (s : Str) : Str := (splitChar '/' s).getLastD []

/-- Model of `replace(/%20/g, ' ')`. -/
def replace20 : Str → Str
  | '%' :: '2' :: '0' :: t => ' ' :: replace20 t
  | c :: t => c :: replace20 t
  | [] => []

/-- Scanner for `replace(/\s+/g, '%20')`; the flag records whether the
previous character belonged to a whitespace run whose `%20` is already
emitted. -/
def wsAux : Bool → Str → Str
  | _, [] => []
  | prevWs, c :: t =>
    if isJsWs c then
      if prevWs then wsAux true t else '%' :: '2' :: '0' :: wsAux true t
    else c :: wsAux false t

/-- Model of `replace(/\s+/g, '%20')`: each maximal whitespace run becomes
one `%20`. -/
def wsRunsTo20 (s : Str) : Str := wsAux false s

/-- Upper-case hexadecimal digit, as produced by `encodeURIComponent`. -/
def hexDigit (n : Nat) : Char :=
  if n < 10 then Char.ofNat (48 + n) else Char.ofNat (55 + n)

/-- Percent-escape of one byte. -/
def byteHex (b : Nat) : Str := ['%', hexDigit (b / 16), hexDigit (b % 16)]

/-- UTF-8 byte sequence of one code point. -/
def utf8Bytes (c : Char) : List Nat :=
  let n := c.toNat
  if n < 0x80 then [n]
  else if n < 0x800 then [0xC0 + n / 64, 0x80 + n % 64]
  else if n < 0x10000 then
    [0xE0 + n / 4096, 0x80 + (n / 64) % 64, 0x80 + n % 64]
  else
    [0xF0 + n / 0x40000, 0x80 + (n / 4096) % 64, 0x80 + (n / 64) % 64,
     0x80 + n % 64]

/-- Characters `encodeURIComponent` leaves unescaped: alphanumerics and
`- _ . ! ~ * ' ( )`. -/
def isUnreservedChar (c : Char) : Bool :=
  (48 ≤ c.toNat ∧ c.toNat ≤ 57) ∨ (65 ≤ c.toNat ∧ c.toNat ≤ 90) ∨
    (97 ≤ c.toNat ∧ c.toNat ≤ 122) ∨
    [45, 95, 46, 33, 126, 42, 39, 40, 41].contains c.toNat

/-- Model of `encodeURIComponent` applied to one path segment. -/
def encSeg (s : Str) : Str :=
  s.flatMap (fun c =>
    if isUnreservedChar c then [c]
    else (utf8Bytes c).flatMap byteHex)

/-- Value of one hexadecimal digit character (either case). -/
def hexVal (c : Char) : Option Nat :=
  if 48 ≤ c.toNat ∧ c.toNat ≤ 57 then some (c.toNat - 48)
  else if 65 ≤ c.toNat ∧ c.toNat ≤ 70 then some (c.toNat - 55)
  else if 97 ≤ c.toNat ∧ c.toNat ≤ 102 then some (c.toNat - 87)
  else none

/-- Model of `decodeURIComponent`; `none` stands for the `URIError` the
JavaScript function throws on a malformed escape sequence. -/
def decodeURIComp : Str → Option Str
  | [] => some []
  | '%' :: h1 :: h2 :: rest =>
    match hexVal h1, hexVal h2 with
    | some a, some b =>
      let n := 16 * a + b
      if n < 0x80 then
        match decodeURIComp rest with
        | some r => some (Char.ofNat n :: r)
        | none => none
      else if 0xC2 ≤ n ∧ n < 0xE0 then
        match rest with
        | '%' :: h3 :: h4 :: rest2 =>
          match hexVal h3, hexVal h4 with
          | some a2, some b2 =>
            let n2 := 16 * a2 + b2
            if 0x80 ≤ n2 ∧ n2 < 0xC0 then
              match decodeURIComp rest2 with
              | some r => some (Char.ofNat ((n - 0xC0) * 64 + (n2 - 0x80)) :: r)
              | none => none
            else none
          | _, _ => none
        | _ => none
      else if 0xE0 ≤ n ∧ n < 0xF0 then
        match rest with
        | '%' :: h3 :: h4 :: '%' :: h5 :: h6 :: rest3 =>
          match hexVal h3, hexVal h4, hexVal h5, hexVal h6 with
          | some a2, some b2, some a3, some b3 =>
            let n2 := 16 * a2 + b2
            let n3 := 16 * a3 + b3
            if 0x80 ≤ n2 ∧ n2 < 0xC0 ∧ 0x80 ≤ n3 ∧ n3 < 0xC0 then
              match decodeURIComp rest3 with
              | some r =>
                some (Char.ofNat ((n - 0xE0) * 4096 + (n2 - 0x80) * 64 +
                  (n3 - 0x80)) :: r)
              | none => none
            else none
          | _, _, _, _ => none
        | _ => none
      else none
    | _, _ => none
  | ['%'] => none
  | ['%', _] => none
  | c :: rest =>
    match decodeURIComp rest with
    | some r => some (c :: r)
    | none => none

/-- Insertion-ordered association list standing for a JavaScript `Map`. -/
abbrev Jmap (α : Type) := List (Str × α)

/-- Model of `Map.prototype.get`. -/
def mget : Jmap α → Str → Option α
  | [], _ => none
  | (k, v) :: t, q => if k = q then some v else mget t q

/-- Model of `Map.prototype.set`: in-place update when the key is present
(iteration order preserved), otherwise append at the end. -/
def mset : Jmap α → Str → α → Jmap α
  | [], q, v => [(q, v)]
  | (k, w) :: t, q, v =>
    if k = q then (q, v) :: t else (k, w) :: mset t q v

/-- Model of `Map.prototype.delete`. -/
def mdel (m : Jmap α) (q : Str) : Jmap α :=
  m.filter (fun e => decide (e.1 ≠ q))

/-- Insertion-ordered duplicate-free list standing for a JavaScript `Set`
of strings. -/
abbrev JSet := List Str

/-- Model of `Set.prototype.add`. -/
def sadd (s : JSet) (k : Str) : JSet := if k ∈ s then s else s ++ [k]

/-- Model of `Set.prototype.delete`. -/
def sdel (s : JSet) (k : Str) : JSet := s.filter (fun x => decide (x ≠ k))

/-- Model of the `PageInfo` record (`indexer.ts` lines 8-16); the
`frontmatter` bag and `lastModified` timestamp play no role in the verified
claims and are omitted. -/
structure PageInfo where
  title : Str
  slug : Str
  path : Str
  relativePath : Str
  aliases : List Str
deriving DecidableEq, Repr

/-- Parsed view of one markdown file: the raw content scanned for wiki links
plus the gray-matter output promoted per the metadata extractor (`title`
property if present, and the merged `aliases`/`alias` list). -/
structure FileData where
  fmTitle : Option Str
  fmAliases : List Str
  content : Str
deriving DecidableEq, Repr

/-- Snapshot of the vault on disk: vault-relative path to file data.  A path
absent from the snapshot stands for a file whose `readFileSync` throws. -/
abbrev FSnap := List (Str × FileData)

/-- Read a file from the snapshot. -/
def readFS (fs : FSnap) : Str → Option FileData
  | p =>
    match fs with
    | [] => none
    | (q, fd) :: t => if q = p then some fd else readFS t p

/-- State of a `VaultIndex` (`indexer.ts` lines 29-36). -/
structure VaultState where
  pages : Jmap PageInfo
  slugToPath : Jmap Str
  aliasToSlug : Jmap Str
  titleToSlug : Jmap Str
  backlinks : Jmap JSet
  forwardLinks : Jmap JSet
deriving DecidableEq, Repr

/-- The empty index, as produced by the constructor (or by the `clear` calls
at the start of `build`). -/
def emptyState : VaultState :=
  { pages := [], slugToPath := [], aliasToSlug := [], titleToSlug := [],
    backlinks := [], forwardLinks := [] }

/-- Model of `posix.basename(filePath, '.md')`: last `/`-separated component,
with a trailing `.md` stripped unless it is the whole component. -/
def basenameMd (p : Str) : Str :=
  let base := (splitChar '/' p).getLastD []
  if ['.', 'm', 'd'].isSuffixOf base ∧ base ≠ ['.', 'm', 'd'] then
    base.take (base.length - 3)
  else base

/-- Strip a final `.md` as in `replace(/\.md$/, '')`. -/
def stripMd (p : Str) : Str :=
  if ['.', 'm', 'd'].isSuffixOf p then p.take (p.length - 3) else p

/-- Model of `VaultIndex.pathToSlug` (`indexer.ts` lines 245-252): drop the
`.md` extension, normalize backslashes, percent-escape each `/`-segment. -/
def pathToSlug (relativePath : Str) : Str :=
  joinChar '/'
    ((splitChar '/'
      ((stripMd relativePath).map (fun c => if c = '\\' then '/' else c))).map
      encSeg)

/-- Model of `VaultIndex.getSlug` (`indexer.ts` lines 257-289).  The final
loop checks, per catalog entry in insertion order, first the case-insensitive
slug comparison and then the filename-part comparison. -/
def getSlugLoop (possibleSlug normalized : Str) : Jmap PageInfo → Option Str
  | [] => none
  | (slug, _) :: rest =>
    if jsLower slug = jsLower possibleSlug then some slug
    else if jsLower (replace20 (lastSeg slug)) = normalized then some slug
    else getSlugLoop possibleSlug normalized rest

/-- Resolve a link text to a slug, mirroring the fallback sequence of the
source: alias table, title table, literal slug with whitespace runs escaped,
then the combined case-insensitive slug / filename scan. -/
def getSlug (s : VaultState) (linkText : Str) : Option Str :=
  let normalized := jsLower (jsTrim linkText)
  match mget s.aliasToSlug normalized with
  | some r => some r
  | none =>
    match mget s.titleToSlug normalized with
    | some r => some r
    | none =>
      let possibleSlug := wsRunsTo20 (jsTrim linkText)
      if (mget s.pages possibleSlug).isSome then some possibleSlug
      else getSlugLoop possibleSlug normalized s.pages

/-- First case-insensitive key match of `VaultIndex.getPage`
(`indexer.ts` lines 300-305). -/
def getPageCiLoop (slug : Str) : Jmap PageInfo → Option PageInfo
  | [] => none
  | (k, v) :: rest =>
    if jsLower k = jsLower slug then some v else getPageCiLoop slug rest

/-- Model of `VaultIndex.getPage` (`indexer.ts` lines 294-314).  When
`decodeURIComponent` would throw, the JavaScript call propagates a
`URIError` instead of returning `null`; the model folds that case into the
lookup failing. -/
def getPage (s : VaultState) (slug : Str) : Option PageInfo :=
  match mget s.pages slug with
  | some p => some p
  | none =>
    match getPageCiLoop slug s.pages with
    | some p => some p
    | none =>
      match decodeURIComp slug with
      | none => none
      | some dec =>
        match getSlug s dec with
        | some resolved =>
          match mget s.pages resolved with
          | some p => some p
          | none => none
        | none => none

/-- Model of `VaultIndex.getBacklinks` (`indexer.ts` lines 326-333): resolve
the recorded keys through the catalog, dropping keys of vanished documents. -/
def getBacklinks (s : VaultState) (slug : Str) : List PageInfo :=
  ((mget s.backlinks slug).getD []).filterMap (mget s.pages)

/-- Model of `VaultIndex.getForwardLinks` (`indexer.ts` lines 338-345). -/
def getForwardLinks (s : VaultState) (slug : Str) : List PageInfo :=
  ((mget s.forwardLinks slug).getD []).filterMap (mget s.pages)

/-- Model of `VaultIndex.getAllPages`. -/
def getAllPages (s : VaultState) : List PageInfo := s.pages.map (fun e => e.2)

/-- The `PageInfo` record `indexFile` builds for one file: the title is the
frontmatter `title` unless absent or the falsy empty string, in which case
the filename without extension. -/
def mkPage (path : Str) (fd : FileData) : PageInfo :=
  { title :=
      match fd.fmTitle with
      | some t => if t = [] then basenameMd path else t
      | none => basenameMd path,
    slug := pathToSlug path, path := path, relativePath := path,
    aliases := fd.fmAliases }

/-- Registration part of `VaultIndex.indexFile` (`indexer.ts` lines 101-154)
after a successful read: compute title and aliases and register the page in
the catalog and resolution tables. -/
def indexFileData (s : VaultState) (path : Str) (fd : FileData) : VaultState :=
  { s with
    pages := mset s.pages (pathToSlug path) (mkPage path fd),
    slugToPath := mset s.slugToPath (pathToSlug path) path,
    titleToSlug := mset
      (mset s.titleToSlug (jsLower (mkPage path fd).title) (pathToSlug path))
      (jsLower (basenameMd path)) (pathToSlug path),
    aliasToSlug := fd.fmAliases.foldl
      (fun m a => mset m (jsLower a) (pathToSlug path)) s.aliasToSlug }

/-- Model of `indexFile` including its `try`/`catch`: a failed read leaves
the state unchanged (the error is only logged). -/
def indexFile (fs : FSnap) (s : VaultState) (path : Str) : VaultState :=
  match readFS fs path with
  | none => s
  | some fd => indexFileData s path fd

/-- Add `src` to the backlink set of `target`, creating the set if absent
(`indexer.ts` lines 200-203). -/
def blAdd (bl : Jmap JSet) (target src : Str) : Jmap JSet :=
  match mget bl target with
  | none => mset bl target [src]
  | some set => mset bl target (sadd set src)

/-- Remove `src` from the backlink set of `target` when that set exists
(the `backlinks.get(targetSlug)?.delete(...)` pattern). -/
def blDel (bl : Jmap JSet) (target src : Str) : Jmap JSet :=
  match mget bl target with
  | none => bl
  | some set => mset bl target (sdel set src)

/-- One step of the link-resolution loop: resolve a link text against the
fixed pre-loop tables `base` and accumulate the resolved set and backlink
additions.  The loop only mutates `backlinks`, which `getSlug` never reads,
so resolving against `base` is faithful to the source. -/
def resolveStep (base : VaultState) (src : Str) (acc : JSet × Jmap JSet)
    (linkText : Str) : JSet × Jmap JSet :=
  match getSlug base linkText with
  | some target => (sadd acc.1 target, blAdd acc.2 target src)
  | none => acc

/-- Rebuild the outgoing links of `src` from `links`, then replace
`forwardLinks[src]` (`indexer.ts` lines 190-207 and 54-74). -/
def recomputeLinks (s : VaultState) (src : Str) (links : List Str) :
    VaultState :=
  let acc := links.foldl (resolveStep s src) ([], s.backlinks)
  { s with backlinks := acc.2, forwardLinks := mset s.forwardLinks src acc.1 }

/-- Greedy capture of `([^\]|]+)`: the maximal non-empty run of characters
other than `]` and `|`, together with the remainder. -/
def grabTarget : Str → Option (Str × Str)
  | [] => none
  | c :: t =>
    if c = ']' ∨ c = '|' then none
    else
      match grabTarget t with
      | some (g, r) => some (c :: g, r)
      | none => some ([c], t)

/-- Greedy capture of `([^\]]+)`: the maximal non-empty run of characters
other than `]`, together with the remainder. -/
def grabDisplay : Str → Option (Str × Str)
  | [] => none
  | c :: t =>
    if c = ']' then none
    else
      match grabDisplay t with
      | some (g, r) => some (c :: g, r)
      | none => some ([c], t)

/-- Wiki link regex `WIKI_LINK_REGEX = /\[\[([^\]|]+)(?:\|([^\]]+))?\]\]/g`
(`parser.ts` line 138): attempt a match immediately after an opening `[[`,
returning the first capture group and the remainder after the closing `]]`.
The greedy groups cannot backtrack to a successful shorter match because
every character they give back fails both the `|` and the `]]` branch. -/
def tryMatch (cs : Str) : Option (Str × Str) :=
  match grabTarget cs with
  | none => none
  | some (g1, rest) =>
    match rest with
    | ']' :: ']' :: r => some (g1, r)
    | '|' :: r2 =>
      match grabDisplay r2 with
      | none => none
      | some (_, rest2) =>
        match rest2 with
        | ']' :: ']' :: r => some (g1, r)
        | _ => none
    | _ => none

/-- The remainder returned by `grabTarget` is strictly shorter. -/
theorem grabTarget_length {cs g r : Str} (h : grabTarget cs = some (g, r)) :
    r.length < cs.length := by
  induction cs generalizing g r with
  | nil => simp [grabTarget] at h
  | cons c t ih =>
    unfold grabTarget at h
    by_cases hc : c = ']' ∨ c = '|'
    · simp [hc] at h
    · simp only [hc, if_false] at h
      rcases hg : grabTarget t with - | ⟨g2, r2⟩ <;> rw [hg] at h <;>
        simp only [Option.some.injEq, Prod.mk.injEq] at h
      · obtain ⟨-, hr⟩ := h
        subst hr
        simp
      · obtain ⟨-, hr⟩ := h
        subst hr
        exact Nat.lt_succ_of_lt (ih hg)

/-- The remainder returned by `grabDisplay` is strictly shorter. -/
theorem grabDisplay_length {cs g r : Str} (h : grabDisplay cs = some (g, r)) :
    r.length < cs.length := by
  induction cs generalizing g r with
  | nil => simp [grabDisplay] at h
  | cons c t ih =>
    unfold grabDisplay at h
    by_cases hc : c = ']'
    · simp [hc] at h
    · simp only [hc, if_false] at h
      rcases hg : grabDisplay t with - | ⟨g2, r2⟩ <;> rw [hg] at h <;>
        simp only [Option.some.injEq, Prod.mk.injEq] at h
      · obtain ⟨-, hr⟩ := h
        subst hr
        simp
      · obtain ⟨-, hr⟩ := h
        subst hr
        exact Nat.lt_succ_of_lt (ih hg)

/-- The remainder returned by `tryMatch` is strictly shorter. -/
theorem tryMatch_length {cs t r : Str} (h : tryMatch cs = some (t, r)) :
    r.length < cs.length := by
  unfold tryMatch at h
  split at h
  · simp at h
  · rename_i g1 rest hg
    have h1 : rest.length < cs.length := grabTarget_length hg
    split at h
    · rename_i r0
      simp only [Option.some.injEq, Prod.mk.injEq] at h
      obtain ⟨-, hr⟩ := h
      subst hr
      simp only [List.length_cons] at h1
      omega
    · rename_i r2
      split at h
      · simp at h
      · rename_i gd rest2 hgd
        have h2 : rest2.length < r2.length := grabDisplay_length hgd
        split at h
        · rename_i r0
          simp only [Option.some.injEq, Prod.mk.injEq] at h
          obtain ⟨-, hr⟩ := h
          subst hr
          simp only [List.length_cons] at h1 h2
          omega
        · simp at h
    · simp at h

/-- Scanning loop of `matchAll`: try a match at each occurrence of `[[`,
advancing one character on failure, collecting trimmed first capture groups
in order (`extractWikiLinks`, `parser.ts`).  The fuel argument makes the
recursion structural; every step strictly shrinks the scanned list, so any
fuel of at least the list's length is enough (`extractAux_fuel`). -/
def extractAux : Nat → Str → List Str
  | 0, _ => []
  | _ + 1, [] => []
  | _ + 1, [_] => []
  | fuel + 1, c1 :: c2 :: rest =>
    if c1 = '[' ∧ c2 = '[' then
      match tryMatch rest with
      | some (t, rest2) => jsTrim t :: extractAux fuel rest2
      | none => extractAux fuel (c2 :: rest)
    else extractAux fuel (c2 :: rest)

/-- Model of `extractWikiLinks` (`parser.ts` lines 372-381). -/
def extractWikiLinks (content : Str) : List Str :=
  extractAux content.length content

/-- Removal phase of `VaultIndex.updateFile` (`indexer.ts` lines 164-182):
when the slug is already indexed, delete its alias entries, its title entry,
and its membership in the backlink sets of its old targets.  The catalog
entry, the filename-derived title entry, and `forwardLinks[oldSlug]` are not
touched here. -/
def updateRemovePhase (s : VaultState) (oldSlug : Str) : VaultState :=
  match mget s.pages oldSlug with
  | none => s
  | some oldPage =>
    { s with
      aliasToSlug := oldPage.aliases.foldl (fun m a => mdel m (jsLower a))
        s.aliasToSlug,
      titleToSlug := mdel s.titleToSlug (jsLower oldPage.title),
      backlinks := ((mget s.forwardLinks oldSlug).getD []).foldl
        (fun bl t => blDel bl t oldSlug) s.backlinks }

/-- Model of `VaultIndex.updateFile` (`indexer.ts` lines 159-209).  When the
read fails, `indexFile` swallows the error and, for a previously indexed
slug, the second `readFileSync` then throws out of `updateFile`; in both
cases the state stops mutating right after the removal phase. -/
def updateFile (fs : FSnap) (path : Str) (s : VaultState) : VaultState :=
  let oldSlug := pathToSlug path
  let s1 := updateRemovePhase s oldSlug
  match readFS fs path with
  | none => s1
  | some fd =>
    let s2 := indexFileData s1 path fd
    match mget s2.pages oldSlug with
    | none => s2
    | some _ => recomputeLinks s2 oldSlug (extractWikiLinks fd.content)

/-- Model of `VaultIndex.removeFile` (`indexer.ts` lines 214-240). -/
def removeFile (path : Str) (s : VaultState) : VaultState :=
  let slug := pathToSlug path
  match mget s.pages slug with
  | none => s
  | some pageInfo =>
    { pages := mdel s.pages slug,
      slugToPath := mdel s.slugToPath slug,
      aliasToSlug := pageInfo.aliases.foldl (fun m a => mdel m (jsLower a))
        s.aliasToSlug,
      titleToSlug := mdel s.titleToSlug (jsLower pageInfo.title),
      backlinks := mdel (((mget s.forwardLinks slug).getD []).foldl
        (fun bl t => blDel bl t slug) s.backlinks) slug,
      forwardLinks := mdel s.forwardLinks slug }

/-- Second pass of `build` for one already-indexed page: scan its content
and record forward and backward edges (`indexer.ts` lines 54-74). -/
def buildLinksFor (fs : FSnap) (s : VaultState) (e : Str × PageInfo) :
    VaultState :=
  match readFS fs e.2.path with
  | none => s
  | some fd => recomputeLinks s e.1 (extractWikiLinks fd.content)

/-- Model of `VaultIndex.build` (`indexer.ts` lines 42-75): clear the state,
index every discovered file, then resolve every page's links.  The snapshot
stands for the list of markdown files the directory walk discovers (hidden
entries and non-`.md` files are filtered by the walk itself). -/
def build (fs : FSnap) : VaultState :=
  let s0 := fs.foldl (fun s e => indexFile fs s e.1) emptyState
  s0.pages.foldl (buildLinksFor fs) s0

/-- One notification handled by the watcher: a full rebuild, an add/change
event (both routed to `updateFile`), or a remove event.  Each event carries
the file-system snapshot current at the time it is handled. -/
inductive VOp where
  | build (fs : FSnap)
  | update (fs : FSnap) (path : Str)
  | remove (path : Str)

/-- Apply one notification. -/
def applyOp (s : VaultState) : VOp → VaultState
  | .build fs => build fs
  | .update fs p => updateFile fs p s
  | .remove p => removeFile p s

/-- Apply a sequence of notifications starting from the empty index. -/
def runOps (ops : List VOp) : VaultState := ops.foldl applyOp emptyState

/-- Scoring of one page against a normalized query
(`indexer.ts` lines 355-385). -/
def pageScore (normalized : Str) (page : PageInfo) : Nat :=
  let titlePart :=
    if strIncludes (jsLower page.title) normalized then
      100 + (if jsLower page.title = normalized then 50 else 0) +
        (if strStartsWith (jsLower page.title) normalized then 25 else 0)
    else 0
  let aliasPart := page.aliases.foldl
    (fun acc al =>
      acc +
        if strIncludes (jsLower al) normalized then
          75 + (if jsLower al = normalized then 50 else 0)
        else 0)
    0
  let pathPart :=
    if strIncludes (jsLower page.relativePath) normalized then 25 else 0
  titlePart + aliasPart + pathPart

/-- Insert into a list sorted by score descending, after every element of
strictly greater score and before the first of smaller-or-equal score: the
unique stable position, matching the stable `Array.prototype.sort` with
comparator `(a, b) => b.score - a.score`. -/
def scoreInsert (x : PageInfo × Nat) :
    List (PageInfo × Nat) → List (PageInfo × Nat)
  | [] => [x]
  | y :: ys => if y.2 > x.2 then y :: scoreInsert x ys else x :: y :: ys

/-- Stable sort by score descending. -/
def scoreSort : List (PageInfo × Nat) → List (PageInfo × Nat)
  | [] => []
  | x :: xs => scoreInsert x (scoreSort xs)

/-- Pages with a positive score, paired with their scores, in catalog
iteration order (`indexer.ts` lines 352-386). -/
def scoredPages (s : VaultState) (normalized : Str) : List (PageInfo × Nat) :=
  (getAllPages s).filterMap (fun page =>
    let sc := pageScore normalized page
    if sc > 0 then some (page, sc) else none)

/-- Model of `VaultIndex.search` (`indexer.ts` lines 350-392). -/
def search (s : VaultState) (query : Str) (limit : Nat) : List PageInfo :=
  let normalized := jsTrim (jsLower query)
  ((scoreSort (scoredPages s normalized)).take limit).map (fun r => r.1)

/-- Model of the `/api/search` route handler (`routes/search.ts` lines
14-34): a blank query short-circuits to an empty result list before the
index is consulted. -/
def searchRoute (s : VaultState) (query : Str) (limit : Nat) :
    List PageInfo :=
  if jsTrim query = [] then [] else search s query limit

/-- Unfolding `mget` on the empty map. -/
theorem mget_nil (q : Str) : mget ([] : Jmap α) q = none := rfl

/-- Unfolding `mget` on a cons cell. -/
theorem mget_cons (k : Str) (v : α) (t : Jmap α) (q : Str) :
    mget ((k, v) :: t) q = if k = q then some v else mget t q := rfl

/-- Unfolding `mset` on the empty map. -/
theorem mset_nil (q : Str) (v : α) : mset ([] : Jmap α) q v = [(q, v)] := rfl

/-- Unfolding `mset` on a cons cell. -/
theorem mset_cons (k : Str) (w : α) (t : Jmap α) (q : Str) (v : α) :
    mset ((k, w) :: t) q v =
      if k = q then (q, v) :: t else (k, w) :: mset t q v := rfl

/-- Unfolding `mdel` on a cons cell. -/
theorem mdel_cons (k : Str) (w : α) (t : Jmap α) (q : Str) :
    mdel ((k, w) :: t) q =
      if k = q then mdel t q else (k, w) :: mdel t q := by
  by_cases h : k = q <;> simp [mdel, List.filter_cons, h]

/-- Lookup after `mset`. -/
theorem mget_mset (m : Jmap α) (k q : Str) (v : α) :
    mget (mset m k v) q = if k = q then some v else mget m q := by
  induction m with
  | nil => simp [mset_nil, mget_cons, mget_nil]
  | cons e t ih =>
    obtain ⟨k1, w⟩ := e
    by_cases h1 : k1 = k
    · subst h1
      by_cases h2 : k1 = q <;> simp [mset_cons, mget_cons, h2]
    · by_cases h2 : k1 = q
      · subst h2
        simp [mset_cons, mget_cons, h1, Ne.symm h1]
      · simp [mset_cons, mget_cons, h1, h2, ih]

/-- Lookup of the key just written. -/
theorem mget_mset_self (m : Jmap α) (k : Str) (v : α) :
    mget (mset m k v) k = some v := by
  rw [mget_mset, if_pos rfl]

/-- Lookup after `mdel`. -/
theorem mget_mdel (m : Jmap α) (k q : Str) :
    mget (mdel m k) q = if k = q then none else mget m q := by
  induction m with
  | nil => simp [mdel, mget_nil]
  | cons e t ih =>
    obtain ⟨k1, w⟩ := e
    rw [mdel_cons]
    by_cases h1 : k1 = k
    · subst h1
      by_cases h2 : k1 = q
      · subst h2
        simp [ih]
      · simp [h2, mget_cons, ih]
    · by_cases h2 : k1 = q
      · subst h2
        simp [h1, mget_cons, Ne.symm h1]
      · simp [h1, h2, mget_cons, ih]

/-- Setting the same key twice keeps only the second write. -/
theorem mset_mset_same (m : Jmap α) (k : Str) (v w : α) :
    mset (mset m k v) k w = mset m k w := by
  induction m with
  | nil => simp [mset_nil, mset_cons]
  | cons e t ih =>
    obtain ⟨k1, u⟩ := e
    by_cases h1 : k1 = k
    · subst h1
      simp [mset_cons]
    · simp [mset_cons, h1, ih]

/-- A key is found by `mget` exactly when it occurs among the keys. -/
theorem mget_isSome_iff (m : Jmap α) (q : Str) :
    (mget m q).isSome ↔ q ∈ m.map Prod.fst := by
  induction m with
  | nil => simp [mget_nil]
  | cons e t ih =>
    obtain ⟨k1, v⟩ := e
    by_cases h1 : k1 = q
    · subst h1
      have hne : Nonempty (Str × α) := ⟨([], v)⟩
      rw [mget_cons, if_pos rfl]
      simp
    · rw [mget_cons, if_neg h1, List.map_cons, List.mem_cons, ih]
      have h2 : ¬ q = k1 := fun h => h1 h.symm
      constructor
      · exact fun h => Or.inr h
      · rintro (h | h)
        · exact absurd h h2
        · exact h

/-- Keys after `mset` on a present key are unchanged. -/
theorem keys_mset_present (m : Jmap α) (k : Str) (v : α)
    (h : (mget m k).isSome) : (mset m k v).map Prod.fst = m.map Prod.fst := by
  induction m with
  | nil => simp [mget_nil] at h
  | cons e t ih =>
    obtain ⟨k1, w⟩ := e
    by_cases h1 : k1 = k
    · subst h1
      simp [mset_cons]
    · rw [mget_cons, if_neg h1] at h
      simp [mset_cons, h1, ih h]

/-- Keys after `mset` on a fresh key gain that key at the end. -/
theorem keys_mset_fresh (m : Jmap α) (k : Str) (v : α)
    (h : mget m k = none) :
    (mset m k v).map Prod.fst = m.map Prod.fst ++ [k] := by
  induction m with
  | nil => simp [mset_nil]
  | cons e t ih =>
    obtain ⟨k1, w⟩ := e
    by_cases h1 : k1 = k
    · subst h1
      simp [mget_cons] at h
    · rw [mget_cons, if_neg h1] at h
      simp [mset_cons, h1, ih h]

/-- `mset` keeps key lists duplicate-free. -/
theorem nodup_keys_mset (m : Jmap α) (k : Str) (v : α)
    (h : (m.map Prod.fst).Nodup) : ((mset m k v).map Prod.fst).Nodup := by
  rcases hk : mget m k with - | w
  · rw [keys_mset_fresh m k v hk]
    have : k ∉ m.map Prod.fst := by
      rw [← mget_isSome_iff, hk]
      simp
    simp [List.nodup_append, this, h]
  · rw [keys_mset_present m k v (by simp [hk])]
    exact h

/-- `mdel` keeps key lists duplicate-free. -/
theorem nodup_keys_mdel (m : Jmap α) (k : Str)
    (h : (m.map Prod.fst).Nodup) : ((mdel m k).map Prod.fst).Nodup := by
  have : (mdel m k).Sublist m := List.filter_sublist m
  exact (this.map Prod.fst).nodup h

/-- Membership after `Set.add`. -/
theorem mem_sadd (s : JSet) (k x : Str) : x ∈ sadd s k ↔ x ∈ s ∨ x = k := by
  unfold sadd
  by_cases h : k ∈ s
  · simp only [if_pos h]
    constructor
    · exact Or.inl
    · rintro (hx | rfl)
      · exact hx
      · exact h
  · simp [if_neg h]

/-- Membership after `Set.delete`. -/
theorem mem_sdel (s : JSet) (k x : Str) : x ∈ sdel s k ↔ x ∈ s ∧ x ≠ k := by
  simp [sdel, List.mem_filter]

/-- Lookup after deleting a batch of keys. -/
theorem mget_foldl_mdel (l : List Str) (f : Str → Str) (m : Jmap α)
    (q : Str) :
    mget (l.foldl (fun m2 a => mdel m2 (f a)) m) q =
      if q ∈ l.map f then none else mget m q := by
  induction l generalizing m with
  | nil => simp
  | cons a t ih =>
    rw [List.foldl_cons, ih]
    by_cases h1 : q ∈ t.map f
    · have h3 : q ∈ (a :: t).map f := by
        rw [List.map_cons, List.mem_cons]
        exact Or.inr h1
      rw [if_pos h1, if_pos h3]
    · by_cases h2 : f a = q
      · have h3 : q ∈ (a :: t).map f := by
          rw [List.map_cons, List.mem_cons]
          exact Or.inl h2.symm
        rw [if_neg h1, if_pos h3, mget_mdel, if_pos h2]
      · have h3 : q ∉ (a :: t).map f := by
          rw [List.map_cons, List.mem_cons]
          rintro (h4 | h4)
          · exact h2 h4.symm
          · exact h1 h4
        rw [if_neg h1, if_neg h3, mget_mdel, if_neg h2]

/-- Lookup after writing a batch of keys, all bound to the same value. -/
theorem mget_foldl_mset (l : List Str) (f : Str → Str) (v : α) (m : Jmap α)
    (q : Str) :
    mget (l.foldl (fun m2 a => mset m2 (f a) v) m) q =
      if q ∈ l.map f then some v else mget m q := by
  induction l generalizing m with
  | nil => simp
  | cons a t ih =>
    rw [List.foldl_cons, ih]
    by_cases h1 : q ∈ t.map f
    · have h3 : q ∈ (a :: t).map f := by
        rw [List.map_cons, List.mem_cons]
        exact Or.inr h1
      rw [if_pos h1, if_pos h3]
    · by_cases h2 : f a = q
      · have h3 : q ∈ (a :: t).map f := by
          rw [List.map_cons, List.mem_cons]
          exact Or.inl h2.symm
        rw [if_neg h1, if_pos h3, mget_mset, if_pos h2]
      · have h3 : q ∉ (a :: t).map f := by
          rw [List.map_cons, List.mem_cons]
          rintro (h4 | h4)
          · exact h2 h4.symm
          · exact h1 h4
        rw [if_neg h1, if_neg h3, mget_mset, if_neg h2]

/-- Membership in a recorded backlink set, reading an absent entry as the
empty set (exactly what `getBacklinks` and the `?.delete` pattern see). -/
def blMem (bl : Jmap JSet) (t x : Str) : Prop := x ∈ (mget bl t).getD []

instance (bl : Jmap JSet) (t x : Str) : Decidable (blMem bl t x) := by
  unfold blMem
  infer_instance

/-- Membership after `blAdd`. -/
theorem blMem_blAdd (bl : Jmap JSet) (t0 src t x : Str) :
    blMem (blAdd bl t0 src) t x ↔ blMem bl t x ∨ (t = t0 ∧ x = src) := by
  unfold blMem blAdd
  by_cases ht : t = t0
  · subst ht
    rcases h0 : mget bl t with - | set
    · simp [mget_mset, h0]
    · simp [mget_mset, h0, mem_sadd]
  · have hne : ¬ t0 = t := fun h => ht h.symm
    rcases h0 : mget bl t0 with - | set <;>
      simp [mget_mset, hne, ht]

/-- Membership after `blDel`. -/
theorem blMem_blDel (bl : Jmap JSet) (t0 src t x : Str) :
    blMem (blDel bl t0 src) t x ↔ blMem bl t x ∧ ¬(t = t0 ∧ x = src) := by
  unfold blMem blDel
  by_cases ht : t = t0
  · subst ht
    rcases h0 : mget bl t with - | set
    · simp [h0]
    · simp [mget_mset, h0, mem_sdel]
  · have hne : ¬ t0 = t := fun h => ht h.symm
    rcases h0 : mget bl t0 with - | set <;>
      simp [mget_mset, hne, ht]

/-- Membership after un-registering `src` from a batch of target sets. -/
theorem blMem_foldl_blDel (targets : List Str) (src : Str) (bl : Jmap JSet)
    (t x : Str) :
    blMem (targets.foldl (fun b t2 => blDel b t2 src) bl) t x ↔
      blMem bl t x ∧ ¬(x = src ∧ t ∈ targets) := by
  induction targets generalizing bl with
  | nil => simp
  | cons a ts ih =>
    rw [List.foldl_cons, ih, blMem_blDel]
    constructor
    · rintro ⟨⟨h1, h2⟩, h3⟩
      refine ⟨h1, ?_⟩
      rintro ⟨rfl, h4⟩
      rcases List.mem_cons.mp h4 with rfl | h5
      · exact h2 ⟨rfl, rfl⟩
      · exact h3 ⟨rfl, h5⟩
    · rintro ⟨h1, h2⟩
      refine ⟨⟨h1, ?_⟩, ?_⟩
      · rintro ⟨rfl, rfl⟩
        exact h2 ⟨rfl, List.mem_cons_self _ _⟩
      · rintro ⟨rfl, h3⟩
        exact h2 ⟨rfl, List.mem_cons_of_mem _ h3⟩

/-- List of targets a batch of link texts resolves to, in occurrence order
with duplicates. -/
def resolvedList (base : VaultState) (links : List Str) : List Str :=
  links.filterMap (getSlug base)

/-- Unfolding the link-loop step when the link does not resolve. -/
theorem resolveStep_none (base : VaultState) (src : Str)
    (acc : JSet × Jmap JSet) (l : Str) (h : getSlug base l = none) :
    resolveStep base src acc l = acc := by
  unfold resolveStep
  rw [h]

/-- Unfolding the link-loop step when the link resolves. -/
theorem resolveStep_some (base : VaultState) (src : Str)
    (acc : JSet × Jmap JSet) (l tgt : Str) (h : getSlug base l = some tgt) :
    resolveStep base src acc l = (sadd acc.1 tgt, blAdd acc.2 tgt src) := by
  unfold resolveStep
  rw [h]

/-- The resolved-set component of the link loop ignores the backlink
accumulator. -/
theorem resolveFold_fst (base : VaultState) (src : Str) (links : List Str)
    (res0 : JSet) (bl0 : Jmap JSet) :
    (links.foldl (resolveStep base src) (res0, bl0)).1 =
      (resolvedList base links).foldl sadd res0 := by
  induction links generalizing res0 bl0 with
  | nil => simp [resolvedList]
  | cons l ls ih =>
    rw [List.foldl_cons]
    rcases h : getSlug base l with - | target
    · rw [resolveStep_none base src _ l h, ih]
      simp [resolvedList, h]
    · rw [resolveStep_some base src _ l target h, ih]
      simp [resolvedList, h]

/-- Membership in the folded resolved set. -/
theorem mem_foldl_sadd (l : List Str) (s0 : JSet) (x : Str) :
    x ∈ l.foldl sadd s0 ↔ x ∈ s0 ∨ x ∈ l := by
  induction l generalizing s0 with
  | nil => simp
  | cons a t ih =>
    rw [List.foldl_cons, ih, mem_sadd]
    constructor
    · rintro (⟨h | h⟩ | h)
      · exact Or.inl h
      · exact Or.inr (List.mem_cons.mpr (Or.inl h))
      · exact Or.inr (List.mem_cons.mpr (Or.inr h))
    · rintro (h | h)
      · exact Or.inl (Or.inl h)
      · rcases List.mem_cons.mp h with rfl | h2
        · exact Or.inl (Or.inr rfl)
        · exact Or.inr h2

/-- Backlink membership after the link loop: old memberships plus `src`'s
membership in every resolved target's set. -/
theorem resolveFold_snd (base : VaultState) (src : Str) (links : List Str)
    (res0 : JSet) (bl0 : Jmap JSet) (t x : Str) :
    blMem (links.foldl (resolveStep base src) (res0, bl0)).2 t x ↔
      blMem bl0 t x ∨ (x = src ∧ t ∈ resolvedList base links) := by
  induction links generalizing res0 bl0 with
  | nil => simp [resolvedList]
  | cons l ls ih =>
    rw [List.foldl_cons]
    rcases h : getSlug base l with - | target
    · rw [resolveStep_none base src _ l h, ih res0 bl0]
      simp [resolvedList, h]
    · rw [resolveStep_some base src _ l target h,
        ih (sadd res0 target) (blAdd bl0 target src), blMem_blAdd]
      simp only [resolvedList, List.filterMap_cons, h]
      constructor
      · rintro ((h1 | ⟨rfl, rfl⟩) | ⟨rfl, h2⟩)
        · exact Or.inl h1
        · exact Or.inr ⟨rfl, List.mem_cons_self _ _⟩
        · exact Or.inr ⟨rfl, List.mem_cons_of_mem _ h2⟩
      · rintro (h1 | ⟨rfl, h2⟩)
        · exact Or.inl (Or.inl h1)
        · rcases List.mem_cons.mp h2 with rfl | h3
          · exact Or.inl (Or.inr ⟨rfl, rfl⟩)
          · exact Or.inr ⟨rfl, h3⟩

/-- The tables `recomputeLinks` leaves alone. -/
theorem recomputeLinks_tables (s : VaultState) (src : Str)
    (links : List Str) :
    (recomputeLinks s src links).pages = s.pages ∧
      (recomputeLinks s src links).slugToPath = s.slugToPath ∧
      (recomputeLinks s src links).aliasToSlug = s.aliasToSlug ∧
      (recomputeLinks s src links).titleToSlug = s.titleToSlug :=
  ⟨rfl, rfl, rfl, rfl⟩

/-- Forward links after `recomputeLinks`. -/
theorem recomputeLinks_fwd (s : VaultState) (src : Str) (links : List Str)
    (q : Str) :
    mget (recomputeLinks s src links).forwardLinks q =
      if src = q then some ((resolvedList s links).foldl sadd [])
      else mget s.forwardLinks q := by
  unfold recomputeLinks
  simp only [mget_mset]
  rw [resolveFold_fst]

/-- Backlink membership after `recomputeLinks`. -/
theorem recomputeLinks_blMem (s : VaultState) (src : Str) (links : List Str)
    (t x : Str) :
    blMem (recomputeLinks s src links).backlinks t x ↔
      blMem s.backlinks t x ∨ (x = src ∧ t ∈ resolvedList s links) := by
  unfold recomputeLinks
  exact resolveFold_snd s src links [] s.backlinks t x

/-- A member of the defaulted set forces the entry to exist. -/
theorem isSome_of_mem_getD {o : Option JSet} {t : Str}
    (h : t ∈ o.getD []) : o.isSome := by
  rcases o with - | set
  · simp at h
  · rfl

/-- Invariant satisfied by every state the indexer can reach: catalog keys
are duplicate-free, each record stores its own key as `slug`, every alias
entry is owned by the live document it points at, every recorded backlink is
matched by a forward edge, and forward-link entries exist only for catalogued
documents. -/
structure VInv (s : VaultState) : Prop where
  pagesNodup : (s.pages.map Prod.fst).Nodup
  slugEq : ∀ k P, mget s.pages k = some P → P.slug = k
  aliasOwn : ∀ nm k, mget s.aliasToSlug nm = some k →
    ∃ P, mget s.pages k = some P ∧ nm ∈ P.aliases.map jsLower
  blFwd : ∀ t x, blMem s.backlinks t x → t ∈ (mget s.forwardLinks x).getD []
  fwdDom : ∀ k, (mget s.forwardLinks k).isSome → (mget s.pages k).isSome

/-- The empty index satisfies the invariant. -/
theorem inv_emptyState : VInv emptyState := by
  constructor
  · simp [emptyState]
  · intro k P h
    simp [emptyState, mget_nil] at h
  · intro nm k h
    simp [emptyState, mget_nil] at h
  · intro t x h
    simp [emptyState, blMem, mget_nil] at h
  · intro k h
    simp [emptyState, mget_nil] at h

/-- Unfolding the removal phase when the key is absent. -/
theorem updateRemovePhase_eq_none (s : VaultState) (oldSlug : Str)
    (h : mget s.pages oldSlug = none) : updateRemovePhase s oldSlug = s := by
  unfold updateRemovePhase
  rw [h]

/-- Unfolding the removal phase when the key is present. -/
theorem updateRemovePhase_eq_some (s : VaultState) (oldSlug : Str)
    (oldPage : PageInfo) (h : mget s.pages oldSlug = some oldPage) :
    updateRemovePhase s oldSlug =
      { s with
        aliasToSlug := oldPage.aliases.foldl (fun m a => mdel m (jsLower a))
          s.aliasToSlug,
        titleToSlug := mdel s.titleToSlug (jsLower oldPage.title),
        backlinks := ((mget s.forwardLinks oldSlug).getD []).foldl
          (fun bl t => blDel bl t oldSlug) s.backlinks } := by
  unfold updateRemovePhase
  rw [h]

/-- The removal phase of `updateFile` preserves the invariant. -/
theorem updateRemovePhase_inv (s : VaultState) (oldSlug : Str)
    (hI : VInv s) : VInv (updateRemovePhase s oldSlug) := by
  rcases hp : mget s.pages oldSlug with - | oldPage
  · rw [updateRemovePhase_eq_none s oldSlug hp]
    exact hI
  · rw [updateRemovePhase_eq_some s oldSlug oldPage hp]
    constructor
    · exact hI.pagesNodup
    · exact hI.slugEq
    · intro nm k h
      simp only at h
      rw [mget_foldl_mdel] at h
      split at h
      · exact absurd h (by simp)
      · exact hI.aliasOwn nm k h
    · intro t x h
      dsimp only at h ⊢
      rw [blMem_foldl_blDel] at h
      exact hI.blFwd t x h.1
    · intro k h
      dsimp only at h
      exact hI.fwdDom k h

/-- After the removal phase, the updated key sits in no backlink set. -/
theorem updateRemovePhase_noSrc (s : VaultState) (oldSlug : Str)
    (hI : VInv s) :
    ∀ t, ¬ blMem (updateRemovePhase s oldSlug).backlinks t oldSlug := by
  intro t hmem
  rcases hp : mget s.pages oldSlug with - | oldPage
  · rw [updateRemovePhase_eq_none s oldSlug hp] at hmem
    have h1 := hI.blFwd t oldSlug hmem
    have h2 := hI.fwdDom oldSlug (isSome_of_mem_getD h1)
    rw [hp] at h2
    simp at h2
  · rw [updateRemovePhase_eq_some s oldSlug oldPage hp] at hmem
    dsimp only at hmem
    rw [blMem_foldl_blDel] at hmem
    obtain ⟨h1, h2⟩ := hmem
    exact h2 ⟨rfl, hI.blFwd t oldSlug h1⟩

/-- Registering a file whose slug owns no alias entry preserves the
invariant. -/
theorem indexFileData_inv (s : VaultState) (p : Str) (fd : FileData)
    (hI : VInv s)
    (hA : ∀ nm, mget s.aliasToSlug nm ≠ some (pathToSlug p)) :
    VInv (indexFileData s p fd) := by
  unfold indexFileData
  constructor
  · exact nodup_keys_mset _ _ _ hI.pagesNodup
  · intro k P h
    simp only [mget_mset] at h
    split at h
    · rename_i heq
      cases h
      exact heq
    · exact hI.slugEq k P h
  · intro nm k h
    simp only at h
    rw [mget_foldl_mset] at h
    split at h
    · rename_i hmem
      cases h
      exact ⟨_, mget_mset_self _ _ _, hmem⟩
    · obtain ⟨P0, hP0, hal⟩ := hI.aliasOwn nm k h
      have hk : pathToSlug p ≠ k := fun he => hA nm (he ▸ h)
      refine ⟨P0, ?_, hal⟩
      rw [mget_mset, if_neg hk]
      exact hP0
  · intro t x h
    exact hI.blFwd t x h
  · intro k h
    rw [mget_mset]
    split
    · rfl
    · exact hI.fwdDom k h

/-- Recomputing links for a catalogued key that currently sits in no
backlink set preserves the invariant. -/
theorem recomputeLinks_inv (s : VaultState) (src : Str) (links : List Str)
    (hI : VInv s)
    (hsrc : ∀ t, ¬ blMem s.backlinks t src)
    (hp : (mget s.pages src).isSome) :
    VInv (recomputeLinks s src links) := by
  constructor
  · rw [(recomputeLinks_tables s src links).1]
    exact hI.pagesNodup
  · rw [(recomputeLinks_tables s src links).1]
    exact hI.slugEq
  · rw [(recomputeLinks_tables s src links).1,
      (recomputeLinks_tables s src links).2.2.1]
    exact hI.aliasOwn
  · intro t x h
    rw [recomputeLinks_blMem] at h
    rw [recomputeLinks_fwd]
    rcases h with h | ⟨rfl, hres⟩
    · by_cases hx : src = x
      · exact absurd (hx ▸ h) (hsrc t)
      · rw [if_neg hx]
        exact hI.blFwd t x h
    · rw [if_pos rfl]
      simp only [Option.getD_some]
      rw [mem_foldl_sadd]
      exact Or.inr hres
  · intro k h
    rw [(recomputeLinks_tables s src links).1]
    rw [recomputeLinks_fwd] at h
    split at h
    · rename_i heq
      exact heq ▸ hp
    · exact hI.fwdDom k h

/-- `indexFileData` never touches the link graph. -/
theorem indexFileData_links (s : VaultState) (p : Str) (fd : FileData) :
    (indexFileData s p fd).backlinks = s.backlinks ∧
      (indexFileData s p fd).forwardLinks = s.forwardLinks :=
  ⟨rfl, rfl⟩

/-- Membership in a backlink table after deleting one whole entry. -/
theorem blMem_mdel (bl : Jmap JSet) (q t x : Str) :
    blMem (mdel bl q) t x ↔ ¬ q = t ∧ blMem bl t x := by
  unfold blMem
  rw [mget_mdel]
  by_cases h : q = t
  · simp [h]
  · simp [h]

/-- No state reachable through the removal phase keeps an alias entry
pointing at the slug about to be re-registered. -/
theorem updateRemovePhase_aliasFree (s : VaultState) (oldSlug : Str)
    (hI : VInv s) :
    ∀ nm, mget (updateRemovePhase s oldSlug).aliasToSlug nm ≠
      some oldSlug := by
  intro nm hcontra
  rcases hp : mget s.pages oldSlug with - | oldPage
  · rw [updateRemovePhase_eq_none s oldSlug hp] at hcontra
    obtain ⟨P0, hP0, -⟩ := hI.aliasOwn nm oldSlug hcontra
    rw [hp] at hP0
    cases hP0
  · rw [updateRemovePhase_eq_some s oldSlug oldPage hp] at hcontra
    dsimp only at hcontra
    rw [mget_foldl_mdel] at hcontra
    split at hcontra
    · cases hcontra
    · rename_i hnm
      obtain ⟨P0, hP0, hal⟩ := hI.aliasOwn nm oldSlug hcontra
      rw [hp] at hP0
      cases hP0
      exact hnm hal

/-- `updateFile` preserves the invariant, on success and on read failure. -/
theorem updateFile_inv (fs : FSnap) (p : Str) (s : VaultState)
    (hI : VInv s) : VInv (updateFile fs p s) := by
  unfold updateFile
  have hI1 : VInv (updateRemovePhase s (pathToSlug p)) :=
    updateRemovePhase_inv s (pathToSlug p) hI
  rcases hr : readFS fs p with - | fd
  · exact hI1
  · have hA := updateRemovePhase_aliasFree s (pathToSlug p) hI
    have hI2 : VInv (indexFileData (updateRemovePhase s (pathToSlug p)) p fd) :=
      indexFileData_inv _ p fd hI1 hA
    dsimp only
    rcases hg : mget (indexFileData (updateRemovePhase s (pathToSlug p))
        p fd).pages (pathToSlug p) with - | P
    · exact hI2
    · refine recomputeLinks_inv _ _ _ hI2 ?_ ?_
      · intro t
        rw [(indexFileData_links _ p fd).1]
        exact updateRemovePhase_noSrc s (pathToSlug p) hI t
      · rw [hg]
        rfl

/-- Unfolding `removeFile` when the key is absent. -/
theorem removeFile_eq_none (p : Str) (s : VaultState)
    (h : mget s.pages (pathToSlug p) = none) : removeFile p s = s := by
  unfold removeFile
  dsimp only
  rw [h]

/-- Unfolding `removeFile` when the key is present. -/
theorem removeFile_eq_some (p : Str) (s : VaultState) (P : PageInfo)
    (h : mget s.pages (pathToSlug p) = some P) :
    removeFile p s =
      { pages := mdel s.pages (pathToSlug p),
        slugToPath := mdel s.slugToPath (pathToSlug p),
        aliasToSlug := P.aliases.foldl (fun m a => mdel m (jsLower a))
          s.aliasToSlug,
        titleToSlug := mdel s.titleToSlug (jsLower P.title),
        backlinks := mdel (((mget s.forwardLinks (pathToSlug p)).getD
          []).foldl (fun bl t => blDel bl t (pathToSlug p)) s.backlinks)
          (pathToSlug p),
        forwardLinks := mdel s.forwardLinks (pathToSlug p) } := by
  unfold removeFile
  dsimp only
  rw [h]

/-- `removeFile` preserves the invariant. -/
theorem removeFile_inv (p : Str) (s : VaultState) (hI : VInv s) :
    VInv (removeFile p s) := by
  rcases hp : mget s.pages (pathToSlug p) with - | P
  · rw [removeFile_eq_none p s hp]
    exact hI
  · rw [removeFile_eq_some p s P hp]
    constructor
    · exact nodup_keys_mdel _ _ hI.pagesNodup
    · intro k Q h
      dsimp only at h
      rw [mget_mdel] at h
      split at h
      · cases h
      · exact hI.slugEq k Q h
    · intro nm k h
      dsimp only at h ⊢
      rw [mget_foldl_mdel] at h
      split at h
      · cases h
      · rename_i hnm
        obtain ⟨P2, hP2, hal⟩ := hI.aliasOwn nm k h
        have hk : ¬ pathToSlug p = k := by
          intro he
          rw [← he] at hP2
          rw [hp] at hP2
          cases hP2
          exact hnm hal
        refine ⟨P2, ?_, hal⟩
        rw [mget_mdel, if_neg hk]
        exact hP2
    · intro t x h
      dsimp only at h ⊢
      rw [blMem_mdel] at h
      obtain ⟨hqt, hfold⟩ := h
      rw [blMem_foldl_blDel] at hfold
      obtain ⟨hold, hnot⟩ := hfold
      have hfx := hI.blFwd t x hold
      by_cases hx : pathToSlug p = x
      · exfalso
        exact hnot ⟨hx.symm, hx ▸ hfx⟩
      · rw [mget_mdel, if_neg hx]
        exact hfx
    · intro k h
      dsimp only at h ⊢
      rw [mget_mdel] at h
      split at h
      · simp at h
      · rename_i hk
        rw [mget_mdel, if_neg hk]
        exact hI.fwdDom k h

/-- Unfolding `indexFile` when the read fails. -/
theorem indexFile_eq_none (fs : FSnap) (s : VaultState) (p : Str)
    (h : readFS fs p = none) : indexFile fs s p = s := by
  unfold indexFile
  rw [h]

/-- Unfolding `indexFile` when the read succeeds. -/
theorem indexFile_eq_some (fs : FSnap) (s : VaultState) (p : Str)
    (fd : FileData) (h : readFS fs p = some fd) :
    indexFile fs s p = indexFileData s p fd := by
  unfold indexFile
  rw [h]

/-- First pass of `build`: indexing a batch of files with pairwise distinct,
fresh slugs preserves the invariant and never touches the link graph. -/
theorem pass1_inv (fs : FSnap) (l : List (Str × FileData)) (s : VaultState)
    (hI : VInv s)
    (hfresh : ∀ e ∈ l, mget s.pages (pathToSlug e.1) = none)
    (hnd : (l.map (fun e => pathToSlug e.1)).Nodup) :
    VInv (l.foldl (fun s2 e => indexFile fs s2 e.1) s) ∧
      (l.foldl (fun s2 e => indexFile fs s2 e.1) s).backlinks =
        s.backlinks ∧
      (l.foldl (fun s2 e => indexFile fs s2 e.1) s).forwardLinks =
        s.forwardLinks := by
  induction l generalizing s with
  | nil => exact ⟨hI, rfl, rfl⟩
  | cons e rest ih =>
    rw [List.foldl_cons]
    rw [List.map_cons, List.nodup_cons] at hnd
    rcases hr : readFS fs e.1 with - | fd
    · rw [indexFile_eq_none fs s e.1 hr]
      exact ih s hI (fun e2 he2 => hfresh e2 (List.mem_cons_of_mem e he2))
        hnd.2
    · rw [indexFile_eq_some fs s e.1 fd hr]
      have hA : ∀ nm, mget s.aliasToSlug nm ≠ some (pathToSlug e.1) := by
        intro nm hcontra
        obtain ⟨P0, hP0, -⟩ := hI.aliasOwn nm _ hcontra
        rw [hfresh e (List.mem_cons_self e rest)] at hP0
        cases hP0
      have hI2 := indexFileData_inv s e.1 fd hI hA
      have hfresh2 : ∀ e2 ∈ rest,
          mget (indexFileData s e.1 fd).pages (pathToSlug e2.1) = none := by
        intro e2 he2
        have hne : pathToSlug e.1 ≠ pathToSlug e2.1 := by
          intro hcontra
          exact hnd.1 (hcontra ▸ List.mem_map_of_mem _ he2)
        show mget (mset s.pages (pathToSlug e.1) _) (pathToSlug e2.1) = none
        rw [mget_mset, if_neg hne]
        exact hfresh e2 (List.mem_cons_of_mem e he2)
      obtain ⟨hI3, hbl, hfl⟩ := ih (indexFileData s e.1 fd) hI2 hfresh2 hnd.2
      exact ⟨hI3, by rw [hbl, (indexFileData_links s e.1 fd).1],
        by rw [hfl, (indexFileData_links s e.1 fd).2]⟩

/-- Unfolding one step of the second `build` pass when the read fails. -/
theorem buildLinksFor_eq_none (fs : FSnap) (s : VaultState)
    (e : Str × PageInfo) (h : readFS fs e.2.path = none) :
    buildLinksFor fs s e = s := by
  unfold buildLinksFor
  rw [h]

/-- Unfolding one step of the second `build` pass when the read succeeds. -/
theorem buildLinksFor_eq_some (fs : FSnap) (s : VaultState)
    (e : Str × PageInfo) (fd : FileData) (h : readFS fs e.2.path = some fd) :
    buildLinksFor fs s e =
      recomputeLinks s e.1 (extractWikiLinks fd.content) := by
  unfold buildLinksFor
  rw [h]

/-- Second pass of `build`: recording links for catalogued pages with
pairwise distinct keys, none of which sits in any backlink set yet,
preserves the invariant. -/
theorem pass2_inv (fs : FSnap) (rem : List (Str × PageInfo))
    (s : VaultState) (hI : VInv s)
    (hnd : (rem.map Prod.fst).Nodup)
    (hmem : ∀ e ∈ rem, (mget s.pages e.1).isSome)
    (hsrc : ∀ e ∈ rem, ∀ t, ¬ blMem s.backlinks t e.1) :
    VInv (rem.foldl (buildLinksFor fs) s) := by
  induction rem generalizing s with
  | nil => exact hI
  | cons e rest ih =>
    rw [List.foldl_cons]
    rw [List.map_cons, List.nodup_cons] at hnd
    rcases hr : readFS fs e.2.path with - | fd
    · rw [buildLinksFor_eq_none fs s e hr]
      exact ih s hI hnd.2 (fun e2 he2 => hmem e2 (List.mem_cons_of_mem e he2))
        (fun e2 he2 => hsrc e2 (List.mem_cons_of_mem e he2))
    · rw [buildLinksFor_eq_some fs s e fd hr]
      have hI2 := recomputeLinks_inv s e.1 (extractWikiLinks fd.content) hI
        (hsrc e (List.mem_cons_self e rest))
        (hmem e (List.mem_cons_self e rest))
      refine ih _ hI2 hnd.2 ?_ ?_
      · intro e2 he2
        rw [(recomputeLinks_tables s e.1 (extractWikiLinks fd.content)).1]
        exact hmem e2 (List.mem_cons_of_mem e he2)
      · intro e2 he2 t hcontra
        rw [recomputeLinks_blMem] at hcontra
        rcases hcontra with h1 | ⟨h2, -⟩
        · exact hsrc e2 (List.mem_cons_of_mem e he2) t h1
        · exact hnd.1 (h2 ▸ List.mem_map_of_mem Prod.fst he2)

/-- `build` over a snapshot whose paths give pairwise distinct slugs
produces an invariant-satisfying state. -/
theorem build_inv (fs : FSnap)
    (hnd : (fs.map (fun e => pathToSlug e.1)).Nodup) : VInv (build fs) := by
  unfold build
  dsimp only
  obtain ⟨hI0, hbl0, hfl0⟩ := pass1_inv fs fs emptyState inv_emptyState
    (fun e he => mget_nil _) hnd
  refine pass2_inv fs _ _ hI0 hI0.pagesNodup ?_ ?_
  · intro e he
    rw [mget_isSome_iff]
    exact List.mem_map_of_mem Prod.fst he
  · intro e he t hcontra
    rw [show (List.foldl (fun s2 e => indexFile fs s2 e.1) emptyState
      fs).backlinks = emptyState.backlinks from hbl0] at hcontra
    simp [blMem, emptyState, mget_nil] at hcontra

/-- Side condition on one notification: a rebuild must discover files whose
paths give pairwise distinct document keys (true of any real directory walk,
where the relative paths themselves are distinct `.md` files). -/
def GoodOp : VOp → Prop
  | .build fs => (fs.map (fun e => pathToSlug e.1)).Nodup
  | .update _ _ => True
  | .remove _ => True

/-- Every single notification preserves the invariant. -/
theorem applyOp_inv (s : VaultState) (op : VOp) (hI : VInv s)
    (hg : GoodOp op) : VInv (applyOp s op) := by
  cases op with
  | build fs => exact build_inv fs hg
  | update fs p => exact updateFile_inv fs p s hI
  | remove p => exact removeFile_inv p s hI

/-- Every state reachable by a sequence of notifications satisfies the
invariant. -/
theorem runOps_inv (ops : List VOp) (hg : ∀ op ∈ ops, GoodOp op) :
    VInv (runOps ops) := by
  suffices h : ∀ s, VInv s → VInv (ops.foldl applyOp s) from
    h emptyState inv_emptyState
  induction ops with
  | nil => exact fun s hI => hI
  | cons op rest ih =>
    intro s hI
    rw [List.foldl_cons]
    exact ih (fun o ho => hg o (List.mem_cons_of_mem op ho)) _
      (applyOp_inv s op hI (hg op (List.mem_cons_self op rest)))

instance decidableGoodOp : DecidablePred GoodOp := fun op => by
  cases op with
  | build fs =>
    unfold GoodOp
    infer_instance
  | update fs p => exact isTrue trivial
  | remove p => exact isTrue trivial

/-- An entry of a duplicate-free map is what `mget` finds for its key. -/
theorem mget_of_mem_nodup {m : Jmap α} {k : Str} {v : α}
    (hmem : (k, v) ∈ m) (hnd : (m.map Prod.fst).Nodup) :
    mget m k = some v := by
  induction m with
  | nil => cases hmem
  | cons e t ih =>
    obtain ⟨k1, w⟩ := e
    rw [List.map_cons, List.nodup_cons] at hnd
    rcases List.mem_cons.mp hmem with he | he
    · cases he
      rw [mget_cons, if_pos rfl]
    · have hk : k1 ≠ k := by
        intro hcontra
        apply hnd.1
        rw [hcontra]
        exact List.mem_map.mpr ⟨(k, v), he, rfl⟩
      rw [mget_cons, if_neg hk]
      exact ih he hnd.2

/-- The case-insensitive loop of `getPage` only returns stored values. -/
theorem getPageCiLoop_mem {slug : Str} {l : Jmap PageInfo} {v : PageInfo}
    (h : getPageCiLoop slug l = some v) : ∃ e ∈ l, e.2 = v := by
  induction l with
  | nil => cases h
  | cons e t ih =>
    obtain ⟨k1, w⟩ := e
    unfold getPageCiLoop at h
    split at h
    · cases h
      exact ⟨(k1, v), List.mem_cons_self _ _, rfl⟩
    · obtain ⟨e2, he2, hv⟩ := ih h
      exact ⟨e2, List.mem_cons_of_mem _ he2, hv⟩

/-- Every page `getPage` returns is stored in the catalog under some key. -/
theorem getPage_from_pages {s : VaultState} {q : Str} {Q : PageInfo}
    (hnd : (s.pages.map Prod.fst).Nodup)
    (h : getPage s q = some Q) : ∃ x, mget s.pages x = some Q := by
  unfold getPage at h
  split at h
  · exact ⟨q, by rename_i heq; rw [heq]; exact congrArg some (Option.some.inj h)⟩
  · split at h
    · rename_i hci
      cases h
      obtain ⟨e, he, hv⟩ := getPageCiLoop_mem hci
      obtain ⟨k1, w⟩ := e
      cases hv
      exact ⟨k1, mget_of_mem_nodup he hnd⟩
    · split at h
      · cases h
      · split at h
        · split at h
          · rename_i hres
            cases h
            exact ⟨_, hres⟩
          · cases h
        · cases h

/-- C1 (amended).  The two-sided symmetry claim fails after remove plus
re-add; this is the direction that does hold in every reachable state: for
documents `a`, `b` both present, if `a`'s document appears in
`getBacklinks(b)` then `b`'s document appears in `getForwardLinks(a)`. -/
theorem C1_backlink_implies_forward (ops : List VOp)
    (hg : ∀ op ∈ ops, GoodOp op) (a b : Str) (pa pb : PageInfo)
    (ha : mget (runOps ops).pages a = some pa)
    (hb : mget (runOps ops).pages b = some pb)
    (hmem : pa ∈ getBacklinks (runOps ops) b) :
    pb ∈ getForwardLinks (runOps ops) a := by
  have hI := runOps_inv ops hg
  unfold getBacklinks at hmem
  obtain ⟨x, hx, hxa⟩ := List.mem_filterMap.mp hmem
  have hax : a = x := by
    rw [← hI.slugEq a pa ha, hI.slugEq x pa hxa]
  subst hax
  have hbf : b ∈ (mget (runOps ops).forwardLinks a).getD [] :=
    hI.blFwd b a hx
  unfold getForwardLinks
  exact List.mem_filterMap.mpr ⟨b, hbf, hb⟩

/-- Frontmatter-free file with the given raw content. -/
def fdPlain (content : Str) : FileData :=
  { fmTitle := none, fmAliases := [], content := content }

/-- Two-file vault: `a.md` links to `k.md`. -/
def fsC1 : FSnap :=
  [("a.md".data, fdPlain "[[k]]".data), ("k.md".data, fdPlain [])]

/-- State after building `fsC1`, removing `k.md`, then re-adding it. -/
def exC1 : VaultState :=
  runOps [.build fsC1, .remove ("k.md".data), .update fsC1 ("k.md".data)]

/-- Catalog record of `a.md` in the scenarios above. -/
def pageA : PageInfo :=
  { title := "a".data, slug := "a".data, path := "a.md".data,
    relativePath := "a.md".data, aliases := [] }

/-- Catalog record of `k.md` in the scenarios above. -/
def pageK : PageInfo :=
  { title := "k".data, slug := "k".data, path := "k.md".data,
    relativePath := "k.md".data, aliases := [] }

/-- C1 witness: in the freshly built two-file vault, `a`'s document appears
in `getBacklinks(k)`, and the theorem yields `k`'s document in
`getForwardLinks(a)`. -/
theorem C1_backlink_implies_forward_witness :
    pageA ∈ getBacklinks (runOps [VOp.build fsC1]) ("k".data) ∧
      pageK ∈ getForwardLinks (runOps [VOp.build fsC1]) ("a".data) :=
  ⟨by decide,
    C1_backlink_implies_forward [VOp.build fsC1] (by decide) ("a".data)
      ("k".data) pageA pageK (by decide) (by decide) (by decide)⟩

/-- C1 counterexample: after removing `k.md` and re-adding it, both keys are
present, `k`'s document appears in `getForwardLinks(a)` (the stale forward
edge resolves again), but `a`'s document does not appear in
`getBacklinks(k)` (the backlink set was destroyed by the removal), so the
claimed equivalence fails. -/
theorem C1_counterexample :
    mget exC1.pages ("a".data) = some pageA ∧
    mget exC1.pages ("k".data) = some pageK ∧
    pageK ∈ getForwardLinks exC1 ("a".data) ∧
    pageA ∉ getBacklinks exC1 ("k".data) := by
  decide

/-- C2 (amended).  After `removeFile` of an indexed key `k` from a reachable
state: `k` sits in no backlink set, no `getForwardLinks` result ever
contains `k`'s document, `getPage(k)` never returns the removed document
(it returns nothing, or a different still-present document matched
case-insensitively or through the resolution chain), and `k` is gone from
the catalog.  The raw forward-link sets of other documents, however, are not
purged (see the counterexample). -/
theorem C2_removal_cleanup (ops : List VOp)
    (hg : ∀ op ∈ ops, GoodOp op) (p : Str) (P : PageInfo)
    (hp : mget (runOps ops).pages (pathToSlug p) = some P) :
    (∀ t, ¬ blMem (removeFile p (runOps ops)).backlinks t (pathToSlug p)) ∧
    (∀ a Q, Q ∈ getForwardLinks (removeFile p (runOps ops)) a →
      Q.slug ≠ pathToSlug p) ∧
    (∀ Q, getPage (removeFile p (runOps ops)) (pathToSlug p) = some Q →
      Q.slug ≠ pathToSlug p) ∧
    mget (removeFile p (runOps ops)).pages (pathToSlug p) = none := by
  have hI := runOps_inv ops hg
  have hI2 := removeFile_inv p (runOps ops) hI
  have hnone : mget (removeFile p (runOps ops)).pages (pathToSlug p) =
      none := by
    rw [removeFile_eq_some p (runOps ops) P hp]
    dsimp only
    rw [mget_mdel, if_pos rfl]
  refine ⟨?_, ?_, ?_, hnone⟩
  · intro t hmem
    rw [removeFile_eq_some p (runOps ops) P hp] at hmem
    dsimp only at hmem
    rw [blMem_mdel] at hmem
    obtain ⟨-, hfold⟩ := hmem
    rw [blMem_foldl_blDel] at hfold
    obtain ⟨hold, hnot⟩ := hfold
    exact hnot ⟨rfl, hI.blFwd t (pathToSlug p) hold⟩
  · intro a Q hmem
    unfold getForwardLinks at hmem
    obtain ⟨x, -, hxq⟩ := List.mem_filterMap.mp hmem
    intro hcontra
    rw [hI2.slugEq x Q hxq] at hcontra
    rw [hcontra] at hxq
    rw [hnone] at hxq
    cases hxq
  · intro Q hQ
    obtain ⟨x, hx⟩ := getPage_from_pages hI2.pagesNodup hQ
    intro hcontra
    rw [hI2.slugEq x Q hx] at hcontra
    rw [hcontra] at hx
    rw [hnone] at hx
    cases hx

/-- C2 witness: removing `k.md` from the built two-file vault leaves no
backlink membership for `k` and drops `k` from the catalog. -/
theorem C2_removal_cleanup_witness :
    mget (runOps [VOp.build fsC1]).pages (pathToSlug ("k.md".data)) =
      some pageK ∧
    mget (removeFile ("k.md".data)
      (runOps [VOp.build fsC1])).pages (pathToSlug ("k.md".data)) = none :=
  ⟨by decide,
    (C2_removal_cleanup [VOp.build fsC1] (by decide) ("k.md".data) pageK
      (by decide)).2.2.2⟩

/-- C2 counterexample: after `removeFile("k.md")`, the removed key `k` is
still a member of `a`'s raw forward-link set — `removeFile` never walks
other documents' forward sets — refuting the claim that `k` appears in no
other document's forward-link set after removal. -/
theorem C2_counterexample :
    ("k".data) ∈ (mget (removeFile ("k.md".data)
      (runOps [VOp.build fsC1])).forwardLinks ("a".data)).getD [] ∧
    mget (removeFile ("k.md".data)
      (runOps [VOp.build fsC1])).pages ("k".data) = none := by
  decide

/-- C3 (amended).  Alias-table purity holds in every reachable state: every
slug stored in `aliasToSlug` refers to a document currently in the catalog.
The title table does not enjoy this: `removeFile` deletes only the
title-derived entry, so a filename-derived secondary entry goes stale
whenever the removed document's frontmatter title differs from its filename
(see the counterexample). -/
theorem C3_alias_purity (ops : List VOp) (hg : ∀ op ∈ ops, GoodOp op)
    (nm k : Str) (h : mget (runOps ops).aliasToSlug nm = some k) :
    ∃ P, mget (runOps ops).pages k = some P := by
  obtain ⟨P, hP, -⟩ := (runOps_inv ops hg).aliasOwn nm k h
  exact ⟨P, hP⟩

/-- One-file vault whose document carries an alias. -/
def fsC3w : FSnap :=
  [("x.md".data,
    { fmTitle := none, fmAliases := ["Ex".data], content := [] })]

/-- C3 witness: the alias entry `ex` of the one-file vault points at a
catalogued document. -/
theorem C3_alias_purity_witness :
    mget (runOps [VOp.build fsC3w]).aliasToSlug ("ex".data) =
      some ("x".data) ∧
    ∃ P, mget (runOps [VOp.build fsC3w]).pages ("x".data) = some P :=
  ⟨by decide,
    C3_alias_purity [VOp.build fsC3w] (by decide) ("ex".data) ("x".data)
      (by decide)⟩

/-- One-file vault whose document has a frontmatter title different from
its filename. -/
def fsC3 : FSnap :=
  [("a.md".data,
    { fmTitle := some ("Alpha".data), fmAliases := [], content := [] })]

/-- C3 counterexample: after removing `a.md` (title `Alpha`, filename `a`),
the filename-derived title entry `a` still maps to the removed document's
slug while the catalog no longer contains it — a stale resolution entry,
refuting title-table purity. -/
theorem C3_counterexample :
    mget (removeFile ("a.md".data)
      (runOps [VOp.build fsC3])).titleToSlug ("a".data) = some ("a".data) ∧
    mget (removeFile ("a.md".data)
      (runOps [VOp.build fsC3])).pages ("a".data) = none := by
  decide

/-- Unfolding `updateFile` when the read fails: only the removal phase
runs (on the `indexFile` side the error is swallowed, and for an indexed
slug the second `readFileSync` throws before any further mutation). -/
theorem updateFile_eq_noread (fs : FSnap) (p : Str) (s : VaultState)
    (h : readFS fs p = none) :
    updateFile fs p s = updateRemovePhase s (pathToSlug p) := by
  unfold updateFile
  dsimp only
  rw [h]

/-- C8 (amended).  When the read fails during `updateFile` of an
already-indexed path, the catalog entry and the forward-link entry survive
untouched, but the key's previous state is already partially torn down: its
alias entries and its title-derived entry are deleted, and its membership in
every old target's backlink set is removed. -/
theorem C8_read_failure_partial_teardown (fs : FSnap) (p : Str)
    (s : VaultState) (oldP : PageInfo)
    (hr : readFS fs p = none)
    (hp : mget s.pages (pathToSlug p) = some oldP) :
    mget (updateFile fs p s).pages (pathToSlug p) = some oldP ∧
    mget (updateFile fs p s).forwardLinks (pathToSlug p) =
      mget s.forwardLinks (pathToSlug p) ∧
    (∀ a ∈ oldP.aliases,
      mget (updateFile fs p s).aliasToSlug (jsLower a) = none) ∧
    mget (updateFile fs p s).titleToSlug (jsLower oldP.title) = none ∧
    (∀ t ∈ (mget s.forwardLinks (pathToSlug p)).getD [],
      ¬ blMem (updateFile fs p s).backlinks t (pathToSlug p)) := by
  rw [updateFile_eq_noread fs p s hr,
    updateRemovePhase_eq_some s (pathToSlug p) oldP hp]
  refine ⟨hp, rfl, ?_, ?_, ?_⟩
  · intro a ha
    dsimp only
    rw [mget_foldl_mdel, if_pos (List.mem_map_of_mem jsLower ha)]
  · dsimp only
    rw [mget_mdel, if_pos rfl]
  · intro t ht hmem
    dsimp only at hmem
    rw [blMem_foldl_blDel] at hmem
    exact hmem.2 ⟨rfl, ht⟩

/-- Vault for the read-failure scenario: `k.md` has a frontmatter title, an
alias and an outgoing link; `a.md` is plain. -/
def fsC8 : FSnap :=
  [("k.md".data,
    { fmTitle := some ("Kay".data), fmAliases := ["x".data],
      content := "[[a]]".data }),
   ("a.md".data, fdPlain [])]

/-- Catalog record of `k.md` in the read-failure scenario. -/
def pageKay : PageInfo :=
  { title := "Kay".data, slug := "k".data, path := "k.md".data,
    relativePath := "k.md".data, aliases := ["x".data] }

/-- C8 witness: on the built vault, updating `k.md` against an empty
snapshot (read failure) keeps the catalog entry for `k`. -/
theorem C8_read_failure_partial_teardown_witness :
    mget (runOps [VOp.build fsC8]).pages (pathToSlug ("k.md".data)) =
      some pageKay ∧
    mget (updateFile [] ("k.md".data)
      (runOps [VOp.build fsC8])).pages (pathToSlug ("k.md".data)) =
      some pageKay :=
  ⟨by decide,
    (C8_read_failure_partial_teardown [] ("k.md".data)
      (runOps [VOp.build fsC8]) pageKay (by decide) (by decide)).1⟩

/-- C8 counterexample: before the failing update, `k`'s alias entry and its
membership in `a`'s backlink set exist; after `updateFile` hits the read
failure both are gone, so the key's previous in-memory state was not left
untouched. -/
theorem C8_counterexample :
    mget (runOps [VOp.build fsC8]).aliasToSlug ("x".data) =
      some ("k".data) ∧
    blMem (runOps [VOp.build fsC8]).backlinks ("a".data) ("k".data) ∧
    mget (updateFile [] ("k.md".data)
      (runOps [VOp.build fsC8])).aliasToSlug ("x".data) = none ∧
    ¬ blMem (updateFile [] ("k.md".data)
      (runOps [VOp.build fsC8])).backlinks ("a".data) ("k".data) := by
  decide

/-- The empty string is a substring of everything (`includes('')`). -/
theorem strIncludes_nil (s : Str) : strIncludes s [] = true := by
  cases s with
  | nil => rfl
  | cons c t => rfl

/-- Every string starts with the empty string (`startsWith('')`). -/
theorem strStartsWith_nil (s : Str) : strStartsWith s [] = true := by
  cases s with
  | nil => rfl
  | cons c t => rfl

/-- A string trims to nothing exactly when all its characters are
whitespace. -/
theorem jsTrim_eq_nil_iff (s : Str) :
    jsTrim s = [] ↔ ∀ c ∈ s, isJsWs c := by
  unfold jsTrim
  rw [List.reverse_eq_nil_iff, List.dropWhile_eq_nil_iff]
  constructor
  · intro h c hc
    rw [← List.takeWhile_append_dropWhile (p := isJsWs) (l := s)] at hc
    rcases List.mem_append.mp hc with h2 | h2
    · exact List.mem_takeWhile_imp h2
    · exact h c (List.mem_reverse.mpr h2)
  · intro h c hc
    exact h c ((s.dropWhile_sublist isJsWs).subset (List.mem_reverse.mp hc))

/-- Whitespace characters are untouched by lower-casing. -/
theorem jsCharLower_ws (c : Char) (h : isJsWs c = true) :
    jsCharLower c = c := by
  unfold isJsWs at h
  simp [List.contains] at h
  unfold jsCharLower
  rw [if_neg (by omega)]

/-- A whitespace-only string stays whitespace-only after lower-casing. -/
theorem jsTrim_jsLower_nil (q : Str) (h : jsTrim q = []) :
    jsTrim (jsLower q) = [] := by
  rw [jsTrim_eq_nil_iff] at h ⊢
  intro c hc
  obtain ⟨c0, hc0, rfl⟩ := List.mem_map.mp hc
  rw [jsCharLower_ws c0 (h c0 hc0)]
  exact h c0 hc0

/-- Every document scores at least 150 against the empty normalized query:
the empty string is a substring and a prefix of every title and path. -/
theorem pageScore_nil_pos (page : PageInfo) : 0 < pageScore [] page := by
  unfold pageScore
  dsimp only
  rw [strIncludes_nil, if_pos rfl, strIncludes_nil, if_pos rfl]
  exact Nat.lt_of_lt_of_le (Nat.zero_lt_succ 24) (Nat.le_add_left 25 _)

/-- Inserting into the sorted accumulator adds one element. -/
theorem scoreInsert_length (x : PageInfo × Nat) (l : List (PageInfo × Nat)) :
    (scoreInsert x l).length = l.length + 1 := by
  induction l with
  | nil => rfl
  | cons y ys ih =>
    unfold scoreInsert
    split
    · simp [ih]
    · simp

/-- The stable sort preserves length. -/
theorem scoreSort_length (l : List (PageInfo × Nat)) :
    (scoreSort l).length = l.length := by
  induction l with
  | nil => rfl
  | cons x xs ih =>
    unfold scoreSort
    rw [scoreInsert_length, ih]
    rfl

/-- Against the empty normalized query, no document is filtered out. -/
theorem scoredPages_nil (s : VaultState) :
    scoredPages s [] =
      (getAllPages s).map (fun page => (page, pageScore [] page)) := by
  unfold scoredPages
  induction getAllPages s with
  | nil => rfl
  | cons p ps ih =>
    rw [List.filterMap_cons, List.map_cons]
    rw [if_pos (pageScore_nil_pos p)]
    rw [ih]

/-- C5 (amended).  For a blank query the `/api/search` route short-circuits
to an empty result, but `VaultIndex.search` itself returns the whole catalog
truncated to the limit — every document matches the empty normalized query
with a positive score — rather than an empty sequence. -/
theorem C5_blank_query (s : VaultState) (q : Str) (limit : Nat)
    (h : jsTrim q = []) :
    searchRoute s q limit = [] ∧
    (search s q limit).length = min limit s.pages.length := by
  constructor
  · unfold searchRoute
    rw [if_pos h]
  · unfold search
    dsimp only
    rw [jsTrim_jsLower_nil q h, List.length_map, List.length_take,
      scoreSort_length, scoredPages_nil, List.length_map]
    unfold getAllPages
    rw [List.length_map]

/-- One-file vault used in the search scenarios. -/
def fsC5v : FSnap := [("t.md".data, fdPlain [])]

/-- C5 witness: on the one-file vault, the route returns nothing for the
whitespace query while `search` itself returns `min 10 1 = 1` document. -/
theorem C5_blank_query_witness :
    jsTrim (" ".data) = [] ∧
    searchRoute (runOps [VOp.build fsC5v]) (" ".data) 10 = [] ∧
    (search (runOps [VOp.build fsC5v]) (" ".data) 10).length =
      min 10 (runOps [VOp.build fsC5v]).pages.length :=
  ⟨by decide,
    (C5_blank_query (runOps [VOp.build fsC5v]) (" ".data) 10 (by decide)).1,
    (C5_blank_query (runOps [VOp.build fsC5v]) (" ".data) 10 (by decide)).2⟩

/-- C5 counterexample: `VaultIndex.search` with an empty or whitespace-only
query returns the indexed document, not an empty sequence. -/
theorem C5_counterexample :
    search (runOps [VOp.build fsC5v]) [] 10 ≠ [] ∧
    search (runOps [VOp.build fsC5v]) (" ".data) 10 ≠ [] := by
  decide

/-- Membership in the insertion step. -/
theorem mem_scoreInsert (x a : PageInfo × Nat) (l : List (PageInfo × Nat)) :
    a ∈ scoreInsert x l ↔ a = x ∨ a ∈ l := by
  induction l with
  | nil => simp [scoreInsert]
  | cons y ys ih =>
    unfold scoreInsert
    split <;> simp only [List.mem_cons, ih]
    all_goals tauto

/-- The stable sort permutes nothing in or out. -/
theorem mem_scoreSort (a : PageInfo × Nat) (l : List (PageInfo × Nat)) :
    a ∈ scoreSort l ↔ a ∈ l := by
  induction l with
  | nil => simp [scoreSort]
  | cons x xs ih =>
    unfold scoreSort
    rw [mem_scoreInsert, ih, List.mem_cons]

/-- Inserting keeps the list sorted by score descending. -/
theorem scoreInsert_sorted (x : PageInfo × Nat) (l : List (PageInfo × Nat))
    (h : l.Pairwise (fun a b => b.2 ≤ a.2)) :
    (scoreInsert x l).Pairwise (fun a b => b.2 ≤ a.2) := by
  induction l with
  | nil => simp [scoreInsert]
  | cons y ys ih =>
    rw [List.pairwise_cons] at h
    unfold scoreInsert
    split
    · rename_i hgt
      rw [List.pairwise_cons]
      refine ⟨?_, ih h.2⟩
      intro a ha
      rcases (mem_scoreInsert x a ys).mp ha with rfl | ha2
      · exact Nat.le_of_lt hgt
      · exact h.1 a ha2
    · rename_i hle
      rw [List.pairwise_cons]
      refine ⟨?_, List.pairwise_cons.mpr h⟩
      intro a ha
      rcases List.mem_cons.mp ha with rfl | ha2
      · exact Nat.le_of_not_lt hle
      · exact Nat.le_trans (h.1 a ha2) (Nat.le_of_not_lt hle)

/-- The stable sort is sorted by score descending. -/
theorem scoreSort_sorted (l : List (PageInfo × Nat)) :
    (scoreSort l).Pairwise (fun a b => b.2 ≤ a.2) := by
  induction l with
  | nil => simp [scoreSort]
  | cons x xs ih => exact scoreInsert_sorted x (scoreSort xs) ih

/-- Filtering one score class out of an insertion: the inserted element goes
in front of its class, because every element it passes over has a strictly
greater score. -/
theorem scoreInsert_filter (v : Nat) (x : PageInfo × Nat)
    (l : List (PageInfo × Nat)) :
    (scoreInsert x l).filter (fun e => decide (e.2 = v)) =
      if x.2 = v then x :: l.filter (fun e => decide (e.2 = v))
      else l.filter (fun e => decide (e.2 = v)) := by
  induction l with
  | nil =>
    unfold scoreInsert
    rw [List.filter_cons]
    split <;> simp_all
  | cons y ys ih =>
    unfold scoreInsert
    split
    · rename_i hgt
      rw [List.filter_cons]
      by_cases hy : y.2 = v
      · have hx : ¬ x.2 = v := by omega
        simp [hy, hx, ih, List.filter_cons]
      · simp [hy, ih, List.filter_cons]
    · rw [List.filter_cons, List.filter_cons]
      by_cases hx : x.2 = v <;> by_cases hy : y.2 = v <;>
        simp [hx, hy, List.filter_cons]

/-- Filtering one score class commutes with the stable sort: ties keep
their catalog iteration order. -/
theorem scoreSort_filter (v : Nat) (l : List (PageInfo × Nat)) :
    (scoreSort l).filter (fun e => decide (e.2 = v)) =
      l.filter (fun e => decide (e.2 = v)) := by
  induction l with
  | nil => rfl
  | cons x xs ih =>
    unfold scoreSort
    rw [scoreInsert_filter, List.filter_cons]
    by_cases hx : x.2 = v <;> simp [hx, ih]

/-- Membership in `scoredPages`. -/
theorem mem_scoredPages (s : VaultState) (n : Str) (e : PageInfo × Nat) :
    e ∈ scoredPages s n ↔
      e.1 ∈ getAllPages s ∧ e.2 = pageScore n e.1 ∧ 0 < e.2 := by
  unfold scoredPages
  rw [List.mem_filterMap]
  constructor
  · rintro ⟨page, hmem, hf⟩
    dsimp only at hf
    split at hf
    · rename_i hpos
      cases hf
      exact ⟨hmem, rfl, hpos⟩
    · cases hf
  · rintro ⟨hmem, hsc, hpos⟩
    refine ⟨e.1, hmem, ?_⟩
    dsimp only
    rw [← hsc, if_pos hpos]

/-- Projecting one score class of `scoredPages` onto pages gives exactly the
catalog-order filter of the pages with that positive score. -/
theorem scoredPages_filter_map (s : VaultState) (n : Str) (v : Nat) :
    ((scoredPages s n).filter (fun e => decide (e.2 = v))).map
        (fun e => e.1) =
      (getAllPages s).filter
        (fun P => decide (0 < pageScore n P ∧ pageScore n P = v)) := by
  unfold scoredPages
  induction getAllPages s with
  | nil => rfl
  | cons p ps ih =>
    rw [List.filterMap_cons]
    dsimp only
    by_cases hpos : 0 < pageScore n p
    · rw [if_pos hpos, List.filter_cons, List.filter_cons]
      by_cases hv : pageScore n p = v
      · have hvpos : 0 < v := by omega
        simp [hpos, hv, hvpos, ih]
      · simp [hpos, hv, ih]
    · rw [if_neg hpos, List.filter_cons]
      have hq : ¬ (0 < pageScore n p ∧ pageScore n p = v) :=
        fun h => hpos h.1
      simp [hq, ih]

/-- Scores attached by `scoredPages` are the page scores. -/
theorem scoredPages_score (s : VaultState) (n : Str) (e : PageInfo × Nat)
    (h : e ∈ scoredPages s n) : e.2 = pageScore n e.1 :=
  ((mem_scoredPages s n e).mp h).2.1

/-- C6 (amended).  `search` excludes zero-score documents, sorts by score
descending, truncates to the limit, and breaks score ties by catalog
iteration order (the stable sort) — not by case-insensitive title: each
score class of the result is an order-preserving sublist of the catalog
filter with that score. -/
theorem C6_search_ordering (s : VaultState) (q : Str) (limit : Nat) :
    (search s q limit).length =
      min limit (scoredPages s (jsTrim (jsLower q))).length ∧
    (∀ P ∈ search s q limit, 0 < pageScore (jsTrim (jsLower q)) P) ∧
    (search s q limit).Pairwise
      (fun a b => pageScore (jsTrim (jsLower q)) b ≤
        pageScore (jsTrim (jsLower q)) a) ∧
    (∀ v, List.Sublist
      ((search s q limit).filter
        (fun P => decide (pageScore (jsTrim (jsLower q)) P = v)))
      ((getAllPages s).filter
        (fun P => decide (0 < pageScore (jsTrim (jsLower q)) P ∧
          pageScore (jsTrim (jsLower q)) P = v)))) := by
  unfold search
  dsimp only
  refine ⟨?_, ?_, ?_, ?_⟩
  · rw [List.length_map, List.length_take, scoreSort_length]
  · intro P hP
    obtain ⟨e, he, rfl⟩ := List.mem_map.mp hP
    have he2 : e ∈ scoreSort (scoredPages s (jsTrim (jsLower q))) :=
      (List.take_sublist _ _).subset he
    have he3 := (mem_scoreSort e _).mp he2
    obtain ⟨-, hsc, hpos⟩ := (mem_scoredPages s _ e).mp he3
    rw [← hsc]
    exact hpos
  · rw [List.pairwise_map]
    have ht := List.Pairwise.sublist
      (List.take_sublist limit
        (scoreSort (scoredPages s (jsTrim (jsLower q)))))
      (scoreSort_sorted (scoredPages s (jsTrim (jsLower q))))
    refine ht.imp_of_mem ?_
    intro a b ha hb hr
    have hsa := scoredPages_score s _ a ((mem_scoreSort a _).mp
      ((List.take_sublist _ _).subset ha))
    have hsb := scoredPages_score s _ b ((mem_scoreSort b _).mp
      ((List.take_sublist _ _).subset hb))
    rw [← hsa, ← hsb]
    exact hr
  · intro v
    rw [List.filter_map]
    have hcong : (List.take limit
        (scoreSort (scoredPages s (jsTrim (jsLower q))))).filter
          ((fun P => decide (pageScore (jsTrim (jsLower q)) P = v)) ∘
            (fun e => e.1)) =
        (List.take limit
          (scoreSort (scoredPages s (jsTrim (jsLower q))))).filter
          (fun e => decide (e.2 = v)) := by
      apply List.filter_congr
      intro e he
      have hsc := scoredPages_score s _ e ((mem_scoreSort e _).mp
        ((List.take_sublist _ _).subset he))
      simp [Function.comp, hsc]
    rw [hcong]
    have hsub : List.Sublist
        ((List.take limit
          (scoreSort (scoredPages s (jsTrim (jsLower q))))).filter
          (fun e => decide (e.2 = v)))
        ((scoreSort (scoredPages s (jsTrim (jsLower q)))).filter
          (fun e => decide (e.2 = v))) :=
      (List.take_sublist _ _).filter _
    rw [scoreSort_filter] at hsub
    have := hsub.map (fun e : PageInfo × Nat => e.1)
    rw [scoredPages_filter_map] at this
    exact this

/-- Lexicographic comparison of code-unit sequences, as JavaScript string
`<` would order the lower-cased titles. -/
def strLt : Str → Str → Bool
  | [], [] => false
  | [], _ :: _ => true
  | _ :: _, [] => false
  | a :: as, b :: bs =>
    if a.toNat < b.toNat then true
    else if b.toNat < a.toNat then false
    else strLt as bs

/-- Insertion step of the ordering the claim describes: score descending
with ties broken by case-insensitive title ascending. -/
def claimInsert (x : PageInfo × Nat) :
    List (PageInfo × Nat) → List (PageInfo × Nat)
  | [] => [x]
  | y :: ys =>
    if y.2 > x.2 ∨ (y.2 = x.2 ∧
        strLt (jsLower y.1.title) (jsLower x.1.title)) then
      y :: claimInsert x ys
    else x :: y :: ys

/-- Sort by the ordering the claim describes. -/
def claimSort : List (PageInfo × Nat) → List (PageInfo × Nat)
  | [] => []
  | x :: xs => claimInsert x (claimSort xs)

/-- The search the claim describes: like `search` but with score ties broken
by case-insensitive title ascending. -/
def searchClaimC6 (s : VaultState) (query : Str) (limit : Nat) :
    List PageInfo :=
  ((claimSort (scoredPages s (jsTrim (jsLower query)))).take limit).map
    (fun r => r.1)

/-- Two-file vault whose documents tie on score for the query `q`, with
catalog order `zq` before `aq` and title order `aq` before `zq`. -/
def fsC6 : FSnap :=
  [("p1.md".data,
    { fmTitle := some ("zq".data), fmAliases := [], content := [] }),
   ("p2.md".data,
    { fmTitle := some ("aq".data), fmAliases := [], content := [] })]

/-- C6 counterexample: on the tie vault the code returns the documents in
catalog order `[zq, aq]`, not in the claimed title-ascending tie order
`[aq, zq]`. -/
theorem C6_counterexample :
    (search (runOps [VOp.build fsC6]) ("q".data) 10).map
        (fun P => P.title) = ["zq".data, "aq".data] ∧
    (searchClaimC6 (runOps [VOp.build fsC6]) ("q".data) 10).map
        (fun P => P.title) = ["aq".data, "zq".data] ∧
    search (runOps [VOp.build fsC6]) ("q".data) 10 ≠
      searchClaimC6 (runOps [VOp.build fsC6]) ("q".data) 10 := by
  decide

/-- Try an ordered list of resolver strategies, first success wins. -/
def firstSome : List (VaultState → Str → Option Str) → VaultState → Str →
    Option Str
  | [], _, _ => none
  | r :: rs, s, t =>
    match r s t with
    | some x => some x
    | none => firstSome rs s t

/-- Rule 1: normalized alias exact match. -/
def resolveByAlias (s : VaultState) (t : Str) : Option Str :=
  mget s.aliasToSlug (jsLower (jsTrim t))

/-- Rule 2: normalized title exact match. -/
def resolveByTitle (s : VaultState) (t : Str) : Option Str :=
  mget s.titleToSlug (jsLower (jsTrim t))

/-- Rule 3: exact key match against the trimmed text with whitespace runs
replaced by `%20` (note: not the full percent-escaping keys are built
with). -/
def resolveByExactKey (s : VaultState) (t : Str) : Option Str :=
  let possible := wsRunsTo20 (jsTrim t)
  if (mget s.pages possible).isSome then some possible else none

/-- Rules 4 and 5 fused into a single scan of the catalog in insertion
order: per key, first the case-insensitive full-key comparison, then the
case-insensitive final-segment comparison (with `%20` read as space)
against the normalized text. -/
def resolveByKeyScan (s : VaultState) (t : Str) : Option Str :=
  (s.pages.find? (fun e =>
    decide (jsLower e.1 = jsLower (wsRunsTo20 (jsTrim t))) ||
      decide (jsLower (replace20 (lastSeg e.1)) = jsLower (jsTrim t)))).map
    Prod.fst

/-- The resolution chain `getSlug` actually implements, phrased as an
explicit ordered list of resolver strategies. -/
def resolveSpecC4 (s : VaultState) (t : Str) : Option Str :=
  firstSome [resolveByAlias, resolveByTitle, resolveByExactKey,
    resolveByKeyScan] s t

/-- The per-key loop equals a single `find?` over the fused predicate. -/
theorem getSlugLoop_eq_find (possible normalized : Str)
    (l : Jmap PageInfo) :
    getSlugLoop possible normalized l =
      (l.find? (fun e =>
        decide (jsLower e.1 = jsLower possible) ||
          decide (jsLower (replace20 (lastSeg e.1)) = normalized))).map
        Prod.fst := by
  induction l with
  | nil => rfl
  | cons e rest ih =>
    obtain ⟨k, v⟩ := e
    unfold getSlugLoop
    rw [List.find?_cons]
    by_cases h1 : jsLower k = jsLower possible
    · simp [h1]
    · by_cases h2 : jsLower (replace20 (lastSeg k)) = normalized
      · simp [h1, h2]
      · simp [h1, h2, ih]

/-- C4 (amended).  `getSlug` is exactly the chain: (1) normalized alias
match, (2) normalized title match, (3) case-sensitive key match of the
trimmed reference with whitespace runs replaced by `%20`, then (4)+(5) one
pass over catalog keys in insertion order checking per key first the
case-insensitive key comparison and then the case-insensitive final-segment
comparison, first match winning; `none` when nothing matches.  Rules 4 and 5
are fused per key, not tried as two separate passes, and rule 3 does not
apply the full path-escaping used to build keys. -/
theorem C4_resolution_chain (s : VaultState) (t : Str) :
    getSlug s t = resolveSpecC4 s t := by
  unfold getSlug resolveSpecC4
  simp only [firstSome]
  unfold resolveByAlias resolveByTitle resolveByExactKey resolveByKeyScan
  dsimp only
  rcases mget s.aliasToSlug (jsLower (jsTrim t)) with - | r
  · dsimp only
    rcases mget s.titleToSlug (jsLower (jsTrim t)) with - | r2
    · dsimp only
      by_cases h3 : (mget s.pages (wsRunsTo20 (jsTrim t))).isSome
      · rw [if_pos h3]
        rw [if_pos h3]
      · rw [if_neg h3]
        rw [if_neg h3]
        rw [getSlugLoop_eq_find]
        dsimp only
        split
        · rename_i r3 heq
          exact heq
        · rename_i heq
          exact heq
    · rfl
  · rfl

/-- The resolution chain the claim literally describes: rule 3 applies the
same per-segment percent-escaping used to build keys, and rules 4 and 5 run
as two separate exhaustive passes. -/
def resolveClaimC4 (s : VaultState) (t : Str) : Option Str :=
  let normalized := jsLower (jsTrim t)
  let es := joinChar '/' ((splitChar '/' (jsTrim t)).map encSeg)
  match mget s.aliasToSlug normalized with
  | some r => some r
  | none =>
    match mget s.titleToSlug normalized with
    | some r => some r
    | none =>
      if (mget s.pages es).isSome then some es
      else
        match (s.pages.find? (fun e =>
            decide (jsLower e.1 = jsLower es))).map Prod.fst with
        | some r => some r
        | none =>
          (s.pages.find? (fun e =>
            decide (jsLower (replace20 (lastSeg e.1)) = normalized))).map
            Prod.fst

/-- Vault for the rule-interleaving scenario: `sub/My Note.md` precedes
`MY NOTE.md` in the catalog; `third.md` carries the frontmatter title
`My Note`, and its removal deletes the shared title entry. -/
def fsC4 : FSnap :=
  [("sub/My Note.md".data, fdPlain []),
   ("MY NOTE.md".data, fdPlain []),
   ("third.md".data,
    { fmTitle := some ("My Note".data), fmAliases := [], content := [] })]

/-- Vault for the escaping scenario: `a&b.md` has a percent-escaped key;
removing `other.md` (frontmatter title `a&b`) deletes the title entry. -/
def fsC4b : FSnap :=
  [("a&b.md".data, fdPlain []),
   ("other.md".data,
    { fmTitle := some ("a&b".data), fmAliases := [], content := [] })]

/-- C4 counterexample.  First scenario: the code resolves `My Note` to the
earlier key `sub/My%20Note` via the per-key rule-5 check, while the claimed
chain's exhaustive rule-4 pass would pick `MY%20NOTE`.  Second scenario: the
code fails to resolve `A&B` because it only escapes whitespace, while the
claimed chain's path-escaping (`A&B` to `A%26B`) would find `a%26b`
case-insensitively. -/
theorem C4_counterexample :
    getSlug (runOps [VOp.build fsC4, VOp.remove ("third.md".data)])
        ("My Note".data) = some ("sub/My%20Note".data) ∧
    resolveClaimC4 (runOps [VOp.build fsC4, VOp.remove ("third.md".data)])
        ("My Note".data) = some ("MY%20NOTE".data) ∧
    getSlug (runOps [VOp.build fsC4b, VOp.remove ("other.md".data)])
        ("A&B".data) = none ∧
    resolveClaimC4 (runOps [VOp.build fsC4b, VOp.remove ("other.md".data)])
        ("A&B".data) = some ("a%26b".data) := by
  decide

/-- Step 1 of the `getPage` fallback chain: exact catalog lookup. -/
def getPageStep1 (s : VaultState) (q : Str) : Option PageInfo :=
  mget s.pages q

/-- Step 2: case-insensitive comparison of the argument against every
existing key, first catalog-order match winning. -/
def getPageStep2 (s : VaultState) (q : Str) : Option PageInfo :=
  (s.pages.find? (fun e => decide (jsLower e.1 = jsLower q))).map Prod.snd

/-- Step 3: resolve the percent-decoded argument as reference text through
the full `getSlug` chain and return the catalogued document it names, if
any. -/
def getPageStep3 (s : VaultState) (q : Str) : Option PageInfo :=
  match decodeURIComp q with
  | none => none
  | some dec =>
    match getSlug s dec with
    | some resolved =>
      match mget s.pages resolved with
      | some p => some p
      | none => none
    | none => none

/-- The three-step fallback chain the claim describes, with the next step
tried only when the previous one produced nothing. -/
def getPageSpec (s : VaultState) (q : Str) : Option PageInfo :=
  (getPageStep1 s q).orElse fun _ =>
    (getPageStep2 s q).orElse fun _ => getPageStep3 s q

/-- The case-insensitive loop equals a `find?` over the catalog. -/
theorem getPageCiLoop_eq_find (slug : Str) (l : Jmap PageInfo) :
    getPageCiLoop slug l =
      (l.find? (fun e => decide (jsLower e.1 = jsLower slug))).map
        Prod.snd := by
  induction l with
  | nil => rfl
  | cons e rest ih =>
    obtain ⟨k, v⟩ := e
    unfold getPageCiLoop
    rw [List.find?_cons]
    by_cases h1 : jsLower k = jsLower slug
    · simp [h1]
    · simp [h1, ih]

/-- C10.  `getPage` is exactly the three-step chain: exact key lookup, then
the case-insensitive key scan, then resolving the percent-decoded argument
through the full `getSlug` chain (so it can return a document whose key
differs from the argument); it returns nothing only when all three steps
fail. -/
theorem C10_getPage_chain (s : VaultState) (q : Str) :
    getPage s q = getPageSpec s q := by
  unfold getPage getPageSpec getPageStep1 getPageStep2 getPageStep3
  rw [getPageCiLoop_eq_find]
  generalize (s.pages.find? (fun e =>
    decide (jsLower e.1 = jsLower q))).map Prod.snd = m2
  generalize decodeURIComp q = m3
  generalize mget s.pages q = m1
  rcases m1 with - | p
  · rcases m2 with - | p2
    · rcases m3 with - | dec
      · rfl
      · rfl
    · rfl
  · rfl

/-- Soundness of the target capture: it decomposes the input and contains
only characters allowed by `[^\]|]+`. -/
theorem grabTarget_sound {cs g r : Str} (h : grabTarget cs = some (g, r)) :
    cs = g ++ r ∧ g ≠ [] ∧ ∀ c ∈ g, c ≠ ']' ∧ c ≠ '|' := by
  induction cs generalizing g r with
  | nil => cases h
  | cons c t ih =>
    unfold grabTarget at h
    by_cases hc : c = ']' ∨ c = '|'
    · rw [if_pos hc] at h
      cases h
    · rw [if_neg hc] at h
      push_neg at hc
      rcases hg : grabTarget t with - | ⟨g2, r2⟩ <;> rw [hg] at h <;>
        simp only [Option.some.injEq, Prod.mk.injEq] at h
      · obtain ⟨hgv, hrv⟩ := h
        subst hgv
        subst hrv
        refine ⟨rfl, by simp, ?_⟩
        intro c2 hc2
        rw [List.mem_singleton] at hc2
        subst hc2
        exact hc
      · obtain ⟨hgv, hrv⟩ := h
        subst hgv
        subst hrv
        obtain ⟨hdec, -, hall⟩ := ih hg
        refine ⟨by rw [hdec]; rfl, by simp, ?_⟩
        intro c2 hc2
        rcases List.mem_cons.mp hc2 with rfl | hc3
        · exact hc
        · exact hall c2 hc3

/-- Soundness of the display capture. -/
theorem grabDisplay_sound {cs g r : Str} (h : grabDisplay cs = some (g, r)) :
    cs = g ++ r ∧ g ≠ [] ∧ ∀ c ∈ g, c ≠ ']' := by
  induction cs generalizing g r with
  | nil => cases h
  | cons c t ih =>
    unfold grabDisplay at h
    by_cases hc : c = ']'
    · rw [if_pos hc] at h
      cases h
    · rw [if_neg hc] at h
      rcases hg : grabDisplay t with - | ⟨g2, r2⟩ <;> rw [hg] at h <;>
        simp only [Option.some.injEq, Prod.mk.injEq] at h
      · obtain ⟨hgv, hrv⟩ := h
        subst hgv
        subst hrv
        refine ⟨rfl, by simp, ?_⟩
        intro c2 hc2
        rw [List.mem_singleton] at hc2
        subst hc2
        exact hc
      · obtain ⟨hgv, hrv⟩ := h
        subst hgv
        subst hrv
        obtain ⟨hdec, -, hall⟩ := ih hg
        refine ⟨by rw [hdec]; rfl, by simp, ?_⟩
        intro c2 hc2
        rcases List.mem_cons.mp hc2 with rfl | hc3
        · exact hc
        · exact hall c2 hc3

/-- Completeness of the target capture: a run of allowed characters followed
by a closing or pipe character is captured exactly. -/
theorem grabTarget_complete (t tail : Str) (ht : t ≠ [])
    (hall : ∀ c ∈ t, c ≠ ']' ∧ c ≠ '|')
    (hhead : ∀ c ts, tail = c :: ts → (c = ']' ∨ c = '|')) :
    grabTarget (t ++ tail) = some (t, tail) := by
  induction t with
  | nil => exact absurd rfl ht
  | cons c t2 ih =>
    have hc := hall c (List.mem_cons_self c t2)
    rw [List.cons_append]
    unfold grabTarget
    rw [if_neg (by push_neg; exact hc)]
    rcases h2 : t2 with - | ⟨c2, t3⟩
    · have hnone : grabTarget tail = none := by
        rcases htail : tail with - | ⟨ch, ts⟩
        · rfl
        · unfold grabTarget
          rw [if_pos (hhead ch ts htail)]
      simp [hnone]
    · rw [h2] at ih hall
      have ih2 := ih (by simp)
        (fun c3 hc3 => hall c3 (List.mem_cons_of_mem c hc3))
      rw [ih2]

/-- Completeness of the display capture. -/
theorem grabDisplay_complete (d tail : Str) (hd : d ≠ [])
    (hall : ∀ c ∈ d, c ≠ ']')
    (hhead : ∀ c ts, tail = c :: ts → c = ']') :
    grabDisplay (d ++ tail) = some (d, tail) := by
  induction d with
  | nil => exact absurd rfl hd
  | cons c d2 ih =>
    have hc := hall c (List.mem_cons_self c d2)
    rw [List.cons_append]
    unfold grabDisplay
    rw [if_neg hc]
    rcases h2 : d2 with - | ⟨c2, d3⟩
    · have hnone : grabDisplay tail = none := by
        rcases htail : tail with - | ⟨ch, ts⟩
        · rfl
        · unfold grabDisplay
          rw [if_pos (hhead ch ts htail)]
      simp [hnone]
    · rw [h2] at ih hall
      have ih2 := ih (by simp)
        (fun c3 hc3 => hall c3 (List.mem_cons_of_mem c hc3))
      rw [ih2]

/-- Shape of a wiki-link occurrence after the target: either the immediate
closing `]]`, or a pipe, a non-empty display free of `]`, and the closing
`]]`; `rest` is what follows the occurrence. -/
def LinkTail (tail rest : Str) : Prop :=
  tail = ']' :: ']' :: rest ∨
    ∃ d, d ≠ [] ∧ (∀ c ∈ d, c ≠ ']') ∧
      tail = '|' :: (d ++ ']' :: ']' :: rest)

/-- A wiki-link occurrence `[[Target]]` or `[[Target|Display]]` at the head
of `cs`, with target `t` (non-empty, free of `]` and `|`) and remainder
`rest` after the occurrence. -/
def LinkAt (cs t rest : Str) : Prop :=
  ∃ tail, cs = '[' :: '[' :: (t ++ tail) ∧ t ≠ [] ∧
    (∀ c ∈ t, c ≠ ']' ∧ c ≠ '|') ∧ LinkTail tail rest

/-- Declarative left-to-right scan for wiki links: either the text is empty,
or no occurrence starts at the current position and the scan moves one
character, or an occurrence starts here and its trimmed target is emitted
before scanning the remainder.  This is the specification the claim
describes: the targets of the `[[Target]]`/`[[Target|Display]]` occurrences
in order, display stripped, target trimmed, and nothing else. -/
inductive LinkScan : Str → List Str → Prop where
  | nil : LinkScan [] []
  | skip (c : Char) (cs : Str) (ls : List Str) :
      (∀ t rest, ¬ LinkAt (c :: cs) t rest) → LinkScan cs ls →
      LinkScan (c :: cs) ls
  | link (cs t rest : Str) (ls : List Str) :
      LinkAt cs t rest → LinkScan rest ls →
      LinkScan cs (jsTrim t :: ls)

/-- A successful `tryMatch` after `[[` is a wiki-link occurrence. -/
theorem tryMatch_sound {rest t r : Str} (h : tryMatch rest = some (t, r)) :
    LinkAt ('[' :: '[' :: rest) t r := by
  unfold tryMatch at h
  split at h
  · cases h
  · rename_i g1 gr hg
    split at h
    · rename_i r0
      obtain ⟨hdec, hne, hall⟩ := grabTarget_sound hg
      simp only [Option.some.injEq, Prod.mk.injEq] at h
      obtain ⟨h1, h2⟩ := h
      rw [h1, h2] at hdec
      rw [h1] at hne hall
      exact ⟨']' :: ']' :: r, by rw [hdec], hne, hall, Or.inl rfl⟩
    · rename_i r2
      split at h
      · cases h
      · rename_i gd rest2 hgd
        split at h
        · rename_i r0
          obtain ⟨hdec, hne, hall⟩ := grabTarget_sound hg
          obtain ⟨hdec2, hne2, hall2⟩ := grabDisplay_sound hgd
          simp only [Option.some.injEq, Prod.mk.injEq] at h
          obtain ⟨h1, h2⟩ := h
          rw [h1] at hdec hne hall
          rw [h2] at hdec2
          refine ⟨'|' :: r2, by rw [hdec], hne, hall,
            Or.inr ⟨gd, hne2, hall2, ?_⟩⟩
          rw [hdec2]
        · cases h
    · cases h

/-- A failed `tryMatch` after `[[` means no wiki-link occurrence starts
there. -/
theorem tryMatch_complete {rest : Str} (h : tryMatch rest = none) :
    ∀ t r, ¬ LinkAt ('[' :: '[' :: rest) t r := by
  intro t r hL
  obtain ⟨tail, hcs, ht, hall, htail⟩ := hL
  have hrest : rest = t ++ tail := by
    simpa using hcs
  rcases htail with htail | ⟨d, hd, hdall, htail⟩
  · have hgrab : grabTarget rest = some (t, tail) := by
      rw [hrest]
      refine grabTarget_complete t tail ht hall ?_
      intro c ts hts
      rw [htail] at hts
      injection hts with hc hrest2
      exact Or.inl hc.symm
    unfold tryMatch at h
    rw [hgrab] at h
    rw [htail] at h
    cases h
  · have hgrab : grabTarget rest = some (t, tail) := by
      rw [hrest]
      refine grabTarget_complete t tail ht hall ?_
      intro c ts hts
      rw [htail] at hts
      injection hts with hc hrest2
      exact Or.inr hc.symm
    have hdisp : grabDisplay (d ++ ']' :: ']' :: r) =
        some (d, ']' :: ']' :: r) := by
      refine grabDisplay_complete d (']' :: ']' :: r) hd hdall ?_
      intro c ts hts
      injection hts with hc hrest2
      exact hc.symm
    unfold tryMatch at h
    rw [hgrab] at h
    rw [htail] at h
    simp only [hdisp] at h
    cases h

/-- With enough fuel, the scanning loop satisfies the declarative scan. -/
theorem extractAux_scan (fuel : Nat) (cs : Str) (hfuel : cs.length ≤ fuel) :
    LinkScan cs (extractAux fuel cs) := by
  induction fuel generalizing cs with
  | zero =>
    have hnil : cs = [] :=
      List.eq_nil_of_length_eq_zero (Nat.le_zero.mp hfuel)
    subst hnil
    exact LinkScan.nil
  | succ fuel ih =>
    rcases cs with - | ⟨c1, cs1⟩
    · exact LinkScan.nil
    · rcases cs1 with - | ⟨c2, rest⟩
      · refine LinkScan.skip c1 [] [] ?_ LinkScan.nil
        rintro t r ⟨tail, hcs, ht, -, -⟩
        rcases t with - | ⟨tc, tt⟩
        · exact ht rfl
        · rw [List.cons_append] at hcs
          injection hcs with h0 h1
          cases h1
      · by_cases hbr : c1 = '[' ∧ c2 = '['
        · obtain ⟨rfl, rfl⟩ := hbr
          show LinkScan _ (extractAux (fuel + 1) ('[' :: '[' :: rest))
          have heq : extractAux (fuel + 1) ('[' :: '[' :: rest) =
              if ('[' : Char) = '[' ∧ ('[' : Char) = '[' then
                match tryMatch rest with
                | some (t, rest2) => jsTrim t :: extractAux fuel rest2
                | none => extractAux fuel ('[' :: rest)
              else extractAux fuel ('[' :: rest) := rfl
          rw [heq, if_pos ⟨rfl, rfl⟩]
          rcases hm : tryMatch rest with - | ⟨t, rest2⟩
          · refine LinkScan.skip '[' ('[' :: rest) _ ?_ ?_
            · intro t r
              exact tryMatch_complete hm t r
            · refine ih ('[' :: rest) ?_
              simp only [List.length_cons] at hfuel ⊢
              omega
          · refine LinkScan.link _ t rest2 _ (tryMatch_sound hm) ?_
            refine ih rest2 ?_
            have := tryMatch_length hm
            simp only [List.length_cons] at hfuel ⊢
            omega
        · show LinkScan _ (extractAux (fuel + 1) (c1 :: c2 :: rest))
          have heq : extractAux (fuel + 1) (c1 :: c2 :: rest) =
              if c1 = '[' ∧ c2 = '[' then
                match tryMatch rest with
                | some (t, rest2) => jsTrim t :: extractAux fuel rest2
                | none => extractAux fuel (c2 :: rest)
              else extractAux fuel (c2 :: rest) := rfl
          rw [heq, if_neg hbr]
          refine LinkScan.skip c1 (c2 :: rest) _ ?_ ?_
          · rintro t r ⟨tail, hcs, -, -, -⟩
            injection hcs with h1 h2
            injection h2 with h3 h4
            exact hbr ⟨h1, h3⟩
          · refine ih (c2 :: rest) ?_
            simp only [List.length_cons] at hfuel ⊢
            omega

/-- C9.  `extractWikiLinks` performs exactly the declarative left-to-right
scan: it returns, in order of occurrence, the trimmed Target portion of
each `[[Target]]` and `[[Target|Display]]` occurrence with the Display
portion stripped, and positions at which no occurrence starts contribute
nothing. -/
theorem C9_extractWikiLinks_scan (content : Str) :
    LinkScan content (extractWikiLinks content) :=
  extractAux_scan content.length content (Nat.le_refl _)

/-! ### C7: reindexing an unchanged file twice -/

/-- The removal phase never touches the catalog, the slug-to-path table, or
the forward-link table. -/
theorem updateRemovePhase_keeps (s : VaultState) (oldSlug : Str) :
    (updateRemovePhase s oldSlug).pages = s.pages ∧
      (updateRemovePhase s oldSlug).slugToPath = s.slugToPath ∧
      (updateRemovePhase s oldSlug).forwardLinks = s.forwardLinks := by
  rcases hp : mget s.pages oldSlug with - | oldPage
  · rw [updateRemovePhase_eq_none s oldSlug hp]
    exact ⟨rfl, rfl, rfl⟩
  · rw [updateRemovePhase_eq_some s oldSlug oldPage hp]
    exact ⟨rfl, rfl, rfl⟩

/-- The aliases recorded on the registered page are the frontmatter
aliases. -/
theorem mkPage_aliases (p : Str) (fd : FileData) :
    (mkPage p fd).aliases = fd.fmAliases := rfl

/-- Catalog field written by the registration step. -/
theorem indexFileData_pages (s : VaultState) (p : Str) (fd : FileData) :
    (indexFileData s p fd).pages =
      mset s.pages (pathToSlug p) (mkPage p fd) := rfl

/-- Slug-to-path field written by the registration step. -/
theorem indexFileData_slugToPath (s : VaultState) (p : Str)
    (fd : FileData) :
    (indexFileData s p fd).slugToPath =
      mset s.slugToPath (pathToSlug p) p := rfl

/-- Alias field written by the registration step. -/
theorem indexFileData_alias (s : VaultState) (p : Str) (fd : FileData) :
    (indexFileData s p fd).aliasToSlug =
      fd.fmAliases.foldl (fun m a => mset m (jsLower a) (pathToSlug p))
        s.aliasToSlug := rfl

/-- Title field written by the registration step. -/
theorem indexFileData_title (s : VaultState) (p : Str) (fd : FileData) :
    (indexFileData s p fd).titleToSlug =
      mset (mset s.titleToSlug (jsLower (mkPage p fd).title)
        (pathToSlug p)) (jsLower (basenameMd p)) (pathToSlug p) := rfl

/-- The registration step does not touch forward links. -/
theorem indexFileData_fwdTable (s : VaultState) (p : Str) (fd : FileData) :
    (indexFileData s p fd).forwardLinks = s.forwardLinks := rfl

/-- The registration step does not touch backlinks. -/
theorem indexFileData_backlinks (s : VaultState) (p : Str)
    (fd : FileData) :
    (indexFileData s p fd).backlinks = s.backlinks := rfl

/-- Unfolding `updateFile` on a successful read: the post-registration
guard always takes the `some` branch because registration has just
catalogued the slug. -/
theorem updateFile_eq_read (fs : FSnap) (p : Str) (s : VaultState)
    (fd : FileData) (h : readFS fs p = some fd) :
    updateFile fs p s =
      recomputeLinks
        (indexFileData (updateRemovePhase s (pathToSlug p)) p fd)
        (pathToSlug p) (extractWikiLinks fd.content) := by
  unfold updateFile
  dsimp only
  rw [h]
  dsimp only
  have hg : mget
      (indexFileData (updateRemovePhase s (pathToSlug p)) p fd).pages
      (pathToSlug p) = some (mkPage p fd) := by
    rw [indexFileData_pages]
    exact mget_mset_self _ _ _
  rw [hg]

/-- `getSlug` only reads the alias table, the title table, and the
catalog, so states agreeing there resolve identically. -/
theorem getSlug_ext (s1 s2 : VaultState) (lt : Str)
    (hp : s1.pages = s2.pages)
    (ha : ∀ q, mget s1.aliasToSlug q = mget s2.aliasToSlug q)
    (ht : ∀ q, mget s1.titleToSlug q = mget s2.titleToSlug q) :
    getSlug s1 lt = getSlug s2 lt := by
  unfold getSlug
  dsimp only
  rw [ha, ht, hp]

/-- Link batches resolve identically over states `getSlug` cannot
distinguish. -/
theorem resolvedList_congr (s1 s2 : VaultState) (links : List Str)
    (h : ∀ lt, getSlug s1 lt = getSlug s2 lt) :
    resolvedList s1 links = resolvedList s2 links := by
  unfold resolvedList
  rw [funext h]

/-- Extensional equality of two index states: identical catalog and
slug-to-path lists, pointwise equal alias, title and forward-link tables,
and the same backlink memberships — everything a reader of the index can
observe. -/
def ExtEq (s1 s2 : VaultState) : Prop :=
  s1.pages = s2.pages ∧
    s1.slugToPath = s2.slugToPath ∧
    (∀ q, mget s1.aliasToSlug q = mget s2.aliasToSlug q) ∧
    (∀ q, mget s1.titleToSlug q = mget s2.titleToSlug q) ∧
    (∀ q, mget s1.forwardLinks q = mget s2.forwardLinks q) ∧
    (∀ t x, blMem s1.backlinks t x ↔ blMem s2.backlinks t x)

/-- Extensional equality is reflexive. -/
theorem extEq_refl (s : VaultState) : ExtEq s s :=
  ⟨rfl, rfl, fun _ => rfl, fun _ => rfl, fun _ => rfl,
    fun _ _ => Iff.rfl⟩

/-- Core of the idempotence argument: two pre-loop states whose readable
tables agree, whose forward tables agree away from `k`, and whose backlink
memberships differ from each other exactly by the first run's
contributions, yield extensionally equal states after the link loop. -/
theorem recompute_twice_ext (s2 s2' : VaultState) (k : Str)
    (L : List Str)
    (hpg : s2'.pages = s2.pages)
    (hsp : s2'.slugToPath = s2.slugToPath)
    (hal : ∀ q, mget s2'.aliasToSlug q = mget s2.aliasToSlug q)
    (hti : ∀ q, mget s2'.titleToSlug q = mget s2.titleToSlug q)
    (hfw : ∀ q, ¬ k = q →
      mget s2'.forwardLinks q = mget s2.forwardLinks q)
    (hbl : ∀ t x,
      blMem s2'.backlinks t x ↔
        (blMem s2.backlinks t x ∨ (x = k ∧ t ∈ resolvedList s2 L)) ∧
          ¬(x = k ∧ t ∈ resolvedList s2 L)) :
    ExtEq (recomputeLinks s2' k L) (recomputeLinks s2 k L) := by
  have hgs : ∀ lt, getSlug s2' lt = getSlug s2 lt := fun lt =>
    getSlug_ext s2' s2 lt hpg hal hti
  have hRL : resolvedList s2' L = resolvedList s2 L :=
    resolvedList_congr s2' s2 L hgs
  refine ⟨?_, ?_, ?_, ?_, ?_, ?_⟩
  · rw [(recomputeLinks_tables s2' k L).1, (recomputeLinks_tables s2 k L).1]
    exact hpg
  · rw [(recomputeLinks_tables s2' k L).2.1,
      (recomputeLinks_tables s2 k L).2.1]
    exact hsp
  · intro q
    rw [(recomputeLinks_tables s2' k L).2.2.1,
      (recomputeLinks_tables s2 k L).2.2.1]
    exact hal q
  · intro q
    rw [(recomputeLinks_tables s2' k L).2.2.2,
      (recomputeLinks_tables s2 k L).2.2.2]
    exact hti q
  · intro q
    rw [recomputeLinks_fwd, recomputeLinks_fwd, hRL]
    by_cases hq : k = q
    · rw [if_pos hq, if_pos hq]
    · rw [if_neg hq, if_neg hq]
      exact hfw q hq
  · intro t x
    rw [recomputeLinks_blMem, recomputeLinks_blMem, hRL, hbl t x]
    tauto

/-- Reindexing a path twice is idempotent when the read fails both times:
only the removal phase runs, and every deletion it performs is
idempotent. -/
theorem updateFile_noread_twice (fs : FSnap) (p : Str) (s : VaultState)
    (h : readFS fs p = none) :
    ExtEq (updateFile fs p (updateFile fs p s)) (updateFile fs p s) := by
  rw [updateFile_eq_noread fs p s h]
  rw [updateFile_eq_noread fs p _ h]
  rcases hp : mget s.pages (pathToSlug p) with - | P
  · rw [updateRemovePhase_eq_none s _ hp, updateRemovePhase_eq_none s _ hp]
    exact extEq_refl s
  · have hp2 : mget (updateRemovePhase s (pathToSlug p)).pages
        (pathToSlug p) = some P := by
      rw [(updateRemovePhase_keeps s _).1]
      exact hp
    rw [updateRemovePhase_eq_some _ _ _ hp2]
    rw [updateRemovePhase_eq_some s _ P hp]
    dsimp only
    refine ⟨rfl, rfl, ?_, ?_, fun _ => rfl, ?_⟩
    · intro q
      rw [mget_foldl_mdel, mget_foldl_mdel]
      by_cases hq : q ∈ P.aliases.map jsLower
      · simp only [if_pos hq]
      · simp only [if_neg hq]
    · intro q
      simp only [mget_mdel]
      by_cases hq : jsLower P.title = q
      · simp only [if_pos hq]
      · simp only [if_neg hq]
    · intro t x
      rw [blMem_foldl_blDel, blMem_foldl_blDel]
      tauto

/-- Reindexing a path twice is idempotent when the read succeeds both
times with the same data: the second run re-deletes and re-registers
exactly what the first run left, and resolves the same link batch over
tables the first run already normalised. -/
theorem updateFile_read_twice (fs : FSnap) (p : Str) (s : VaultState)
    (fd : FileData) (h : readFS fs p = some fd) :
    ExtEq (updateFile fs p (updateFile fs p s)) (updateFile fs p s) := by
  rw [updateFile_eq_read fs p s fd h]
  rw [updateFile_eq_read fs p _ fd h]
  have hPmem : mget (recomputeLinks
      (indexFileData (updateRemovePhase s (pathToSlug p)) p fd)
      (pathToSlug p) (extractWikiLinks fd.content)).pages (pathToSlug p)
      = some (mkPage p fd) := by
    rw [(recomputeLinks_tables _ _ _).1, indexFileData_pages]
    exact mget_mset_self _ _ _
  apply recompute_twice_ext
  · rw [indexFileData_pages, (updateRemovePhase_keeps _ _).1,
      (recomputeLinks_tables _ _ _).1, indexFileData_pages]
    exact mset_mset_same _ _ _ _
  · rw [indexFileData_slugToPath, (updateRemovePhase_keeps _ _).2.1,
      (recomputeLinks_tables _ _ _).2.1, indexFileData_slugToPath]
    exact mset_mset_same _ _ _ _
  · intro q
    rw [indexFileData_alias, indexFileData_alias, mget_foldl_mset,
      mget_foldl_mset]
    by_cases hq : q ∈ fd.fmAliases.map jsLower
    · simp only [if_pos hq]
    · simp only [if_neg hq]
      rw [updateRemovePhase_eq_some _ _ _ hPmem]
      dsimp only
      rw [mkPage_aliases, mget_foldl_mdel, if_neg hq,
        (recomputeLinks_tables _ _ _).2.2.1, indexFileData_alias,
        mget_foldl_mset, if_neg hq]
  · intro q
    rw [indexFileData_title, indexFileData_title,
      updateRemovePhase_eq_some _ _ _ hPmem]
    dsimp only
    rw [(recomputeLinks_tables _ _ _).2.2.2, indexFileData_title]
    simp only [mget_mset, mget_mdel]
    by_cases h1 : jsLower (basenameMd p) = q
    · simp only [if_pos h1]
    · simp only [if_neg h1]
      by_cases h2 : jsLower (mkPage p fd).title = q
      · simp only [if_pos h2]
      · simp only [if_neg h2]
  · intro q hq
    rw [indexFileData_fwdTable, (updateRemovePhase_keeps _ _).2.2,
      recomputeLinks_fwd, if_neg hq]
  · intro t x
    rw [updateRemovePhase_eq_some _ _ _ hPmem]
    simp only [indexFileData_backlinks]
    rw [blMem_foldl_blDel, recomputeLinks_blMem, recomputeLinks_fwd,
      if_pos rfl, Option.getD_some, mem_foldl_sadd]
    simp only [indexFileData_backlinks, List.not_mem_nil, false_or]

/-- C7.  Idempotent reindex: for every snapshot, path and starting state,
applying `updateFile` twice in a row with unchanged file content yields an
index state extensionally equal to the state after applying it once — the
catalog and slug-to-path lists are identical, the alias, title and
forward-link tables answer every lookup identically, and the backlink
graph has exactly the same memberships. -/
theorem C7_idempotent_reindex (fs : FSnap) (p : Str) (s : VaultState) :
    ExtEq (updateFile fs p (updateFile fs p s)) (updateFile fs p s) := by
  rcases h : readFS fs p with - | fd
  · exact updateFile_noread_twice fs p s h
  · exact updateFile_read_twice fs p s fd h
